import Mathlib

/-!
Verification of the Pacman A* search core.

This file gives a shallow embedding in Lean 4 of the state-space search core
of the repository: the grid model (`maze.py`), the search state and successor
generator (`pacman.py`), the heuristic evaluators and the A* driver
(`search.py`), for both the base variant (`src/*.py`) and the extended variant
(`src/pacman_ai/src/*.py`).  Pure Python functions become Lean functions;
Python `int` becomes `ℤ` (or `ℕ` where the code keeps the value non-negative),
Python `set` becomes `Finset`, Python `dict`/`list` registries become
association lists / lists with the same key-equality semantics as the code.
Randomness (ghost movement in the extended variant) is abstracted as an
explicit oracle parameter supplying the outcome of each random draw.

On top of the embedding we prove or refute the specification's claims about
trap avoidance, cost accounting, state identity, heuristic admissibility and
consistency, the MST heuristic, legal-move enumeration, search-failure
semantics and corner identification.
-/

/-- A grid coordinate `(x, y)`, exactly the pairs of Python ints used by the code. -/
abbrev Pos := ℤ × ℤ

/-- Manhattan distance `abs(x1 - x2) + abs(y1 - y2)` as computed by the code
(`search.py`, heuristic classes and `manhattan_distance`). -/
def manhattanDist (p q : Pos) : ℕ := (p.1 - q.1).natAbs + (p.2 - q.2).natAbs

/-- The five atomic actions of the engine; the code names them with the
strings `'North'`, `'East'`, `'South'`, `'West'`, `'Stop'`. -/
inductive PacAction where
  | north
  | east
  | south
  | west
  | stop
deriving DecidableEq, Repr

/-- The `(dx, dy)` displacement paired with each action, as listed in
`Maze.get_legal_moves` (`maze.py`, base variant). -/
def PacAction.delta : PacAction → ℤ × ℤ
  | .north => (0, -1)
  | .east => (1, 0)
  | .south => (0, 1)
  | .west => (-1, 0)
  | .stop => (0, 0)

/-! ## Grid model, base variant (`src/maze.py`)

The maze is modelled after the fields set up by `Maze.parse_layout`: a
rectangular character grid plus the recorded special cells.  File parsing
itself is an external collaborator and out of scope; the structure starts
from the parsed fields. -/

structure Maze where
  grid : List (List Char)
  width : ℤ
  height : ℤ
  pacman_start : Pos
  food_positions : Finset Pos
  magical_pie_positions : Finset Pos
deriving DecidableEq

namespace Maze

/-- `self.grid[y][x]`, defaulting to a blank for mathematically out-of-range
indices (the code only indexes in bounds, guarded by the bounds check in
`is_wall`). -/
def cellAt (m : Maze) (x y : ℤ) : Char :=
  ((m.grid.getD y.toNat []).getD x.toNat ' ')

/-- `Maze.is_wall`: true if out of bounds or the cell is `'%'`. -/
def is_wall (m : Maze) (x y : ℤ) : Bool :=
  if 0 ≤ x ∧ x < m.width ∧ 0 ≤ y ∧ y < m.height then
    m.cellAt x y = '%'
  else
    true

/-- The four candidate corners of `Maze.identify_corners`: the extreme grid
coordinate pairs (not the extremes of the non-wall region). -/
def potential_corners (m : Maze) : List Pos :=
  [(0, 0), (m.width - 1, 0), (0, m.height - 1), (m.width - 1, m.height - 1)]

/-- `Maze.identify_corners`: the potential corners that are not walls, in
order (kept as a list, as the code keeps `self.corners`; duplicates are kept
when the grid is a single row or column). -/
def identify_corners (m : Maze) : List Pos :=
  m.potential_corners.filter (fun p => ¬ m.is_wall p.1 p.2)

/-- `Maze.get_teleport_destination`: if the corner list has at least two
members and contains `(x, y)`, return the corner at index `(idx + 2) % len`. -/
def get_teleport_destination (m : Maze) (x y : ℤ) : Option Pos :=
  let corners := m.identify_corners
  if corners.length < 2 then
    none
  else if (x, y) ∈ corners then
    corners.get? ((corners.indexOf (x, y) + 2) % corners.length)
  else
    none

/-- The full move table of `Maze.get_legal_moves`. -/
def all_moves : List PacAction := [.north, .east, .south, .west, .stop]

/-- `Maze.get_legal_moves`: Stop is always allowed; a cardinal move is kept
when the destination is not a wall or `can_pass_walls` is set.  (Note the
code's test is `not is_wall(nx, ny) or can_pass_walls`, so with the flag set
even out-of-bounds destinations pass.) -/
def get_legal_moves (m : Maze) (x y : ℤ) (can_pass_walls : Bool) : List PacAction :=
  all_moves.filter (fun a =>
    if a = .stop then true
    else ¬ m.is_wall (x + a.delta.1) (y + a.delta.2) ∨ can_pass_walls)

end Maze

/-! ## Search state and successor generator, base variant (`src/pacman.py`) -/

structure PacmanState where
  position : Pos
  remaining_food : Finset Pos
  remaining_pies : Finset Pos
  wall_pass_steps : ℕ
  path : List PacAction
  path_cost : ℕ
deriving DecidableEq

namespace PacmanState

/-- `PacmanState.__eq__`: equality of position, remaining food, remaining
pies and wall-pass steps; `path` and `path_cost` are not compared. -/
def stateEq (s t : PacmanState) : Prop :=
  s.position = t.position ∧ s.remaining_food = t.remaining_food ∧
    s.remaining_pies = t.remaining_pies ∧ s.wall_pass_steps = t.wall_pass_steps

instance (s t : PacmanState) : Decidable (stateEq s t) := by
  unfold stateEq; infer_instance

/-- Boolean form of `stateEq`, used where the Python runtime calls `__eq__`
(set/dict membership in the A* driver). -/
def stateEqb (s t : PacmanState) : Bool := decide (stateEq s t)

/-- The tuple that `PacmanState.__hash__` hashes: `(position,
frozenset(remaining_food), frozenset(remaining_pies), wall_pass_steps)`.
Python's hash of this tuple is a pure function of it, so two states with the
same key hash identically. -/
def hashKey (s : PacmanState) : Pos × Finset Pos × Finset Pos × ℕ :=
  (s.position, s.remaining_food, s.remaining_pies, s.wall_pass_steps)

/-- `PacmanState.is_goal_state`: all food collected. -/
def is_goal_state (s : PacmanState) : Prop := s.remaining_food = ∅

instance (s : PacmanState) : Decidable s.is_goal_state := by
  unfold is_goal_state; infer_instance

end PacmanState

namespace Maze

/-- The body of the `for` loop of `PacmanSearchProblem.get_successors`: apply
the move, teleport from corners, decrement the wall-pass counter, collect
food and pie, append the action and add 1 to the cost. -/
def apply_move (m : Maze) (s : PacmanState) (a : PacAction) : PacmanState :=
  let moved : Pos := (s.position.1 + a.delta.1, s.position.2 + a.delta.2)
  let landed : Pos :=
    match m.get_teleport_destination moved.1 moved.2 with
    | some d => d
    | none => moved
  let steps1 : ℕ := if s.wall_pass_steps > 0 then s.wall_pass_steps - 1 else s.wall_pass_steps
  let food1 : Finset Pos := s.remaining_food.erase landed
  let gotPie : Bool := landed ∈ s.remaining_pies
  { position := landed
    remaining_food := food1
    remaining_pies := s.remaining_pies.erase landed
    wall_pass_steps := if gotPie then 5 else steps1
    path := s.path ++ [a]
    path_cost := s.path_cost + 1 }

/-- `PacmanSearchProblem.get_successors`: one `(state, action, cost)` triple
per legal move; every action (Stop included) is reported with cost 1. -/
def get_successors (m : Maze) (s : PacmanState) : List (PacmanState × PacAction × ℕ) :=
  (m.get_legal_moves s.position.1 s.position.2 (s.wall_pass_steps > 0)).map
    (fun a => (m.apply_move s a, a, 1))

/-- The initial state built by `PacmanSearchProblem.__init__`. -/
def initial_state (m : Maze) : PacmanState :=
  { position := m.pacman_start
    remaining_food := m.food_positions
    remaining_pies := m.magical_pie_positions
    wall_pass_steps := 0
    path := []
    path_cost := 0 }

/-- One-step successor relation of the base search problem. -/
def stepRel (m : Maze) (s t : PacmanState) : Prop :=
  ∃ x ∈ m.get_successors s, x.1 = t

/-- States reachable from the initial state through `get_successors`. -/
def reachable (m : Maze) (s : PacmanState) : Prop :=
  Relation.ReflTransGen m.stepRel m.initial_state s

end Maze

/-! ## Heuristic evaluators, base variant (`src/search.py`) -/

/-- `NearestFoodHeuristic.compute`: 0 with no food, otherwise the minimum
Manhattan distance from the position to a remaining food. -/
def nearestFoodHeuristic (s : PacmanState) : ℕ :=
  if h : s.remaining_food.Nonempty then
    (s.remaining_food.image (fun f => manhattanDist s.position f)).min'
      (h.image _)
  else 0

/-- One comparison of `MSTHeuristic.compute`'s candidate scan: starting from
`min_dist = inf` (modelled by `none`), replace the best candidate exactly
when the new distance is strictly smaller. -/
def primFoldStep {n : ℕ} (w : Fin n → Fin n → ℕ)
    (acc : Option (Fin n × Fin n × ℕ)) (uv : Fin n × Fin n) :
    Option (Fin n × Fin n × ℕ) :=
  match acc with
  | none => some (uv.1, uv.2, w uv.1 uv.2)
  | some best =>
    if w uv.1 uv.2 < best.2.2 then some (uv.1, uv.2, w uv.1 uv.2) else acc

/-- One selection pass of `MSTHeuristic.compute`'s inner double loop: scan
all `(u, v)` with `u` visited and `v` unvisited in index order and keep the
first pair attaining the strictly smallest distance. -/
def primSelect {n : ℕ} (w : Fin n → Fin n → ℕ) (visited : Finset (Fin n)) :
    Option (Fin n × Fin n × ℕ) :=
  (((List.finRange n).product (List.finRange n)).filter
      (fun uv => uv.1 ∈ visited ∧ uv.2 ∉ visited)).foldl (primFoldStep w) none

/-- The `while edges_added < n - 1` loop of `MSTHeuristic.compute`: `k` counts
the edges still to add; on each turn the minimum edge across the
visited/unvisited cut is added, or the loop breaks if none exists. -/
def primLoop {n : ℕ} (w : Fin n → Fin n → ℕ) :
    ℕ → Finset (Fin n) → ℕ → ℕ
  | 0, _, acc => acc
  | k + 1, visited, acc =>
    match primSelect w visited with
    | none => acc
    | some (_, v, d) => primLoop w k (insert v visited) (acc + d)

/-- A concrete linear enumeration order on coordinates.  Python's
`list(set)` enumerates the set in an unspecified order; the embedding fixes
the lexicographic order (the Prim result is proved independent of the
enumeration order, so any fixed choice is faithful). -/
def posLe (p q : Pos) : Prop := p.1 < q.1 ∨ (p.1 = q.1 ∧ p.2 ≤ q.2)

instance : DecidableRel posLe := fun _ _ => by unfold posLe; infer_instance

instance : IsTrans Pos posLe where
  trans := by
    rintro ⟨a, b⟩ ⟨c, d⟩ ⟨e, f⟩ (h | ⟨h, h'⟩) (g | ⟨g, g'⟩) <;>
      simp_all [posLe] <;> omega

instance : IsAntisymm Pos posLe where
  antisymm := by
    rintro ⟨a, b⟩ ⟨c, d⟩ (h | ⟨h, h'⟩) (g | ⟨g, g'⟩) <;> simp_all <;> omega

instance : IsTotal Pos posLe where
  total := by
    rintro ⟨a, b⟩ ⟨c, d⟩
    simp only [posLe]
    omega

/-- Sort the underlying multiset by insertion sort (well-defined because
sorted permutations agree under a total antisymmetric transitive order). -/
def sortMultiset (m : Multiset Pos) : List Pos :=
  Quot.liftOn m (List.insertionSort posLe) (fun l1 l2 h =>
    List.eq_of_perm_of_sorted
      ((List.perm_insertionSort posLe l1).trans
        (h.trans (List.perm_insertionSort posLe l2).symm))
      (List.sorted_insertionSort posLe l1) (List.sorted_insertionSort posLe l2))

/-- Enumerate a finite set of coordinates as a duplicate-free list. -/
def posList (s : Finset Pos) : List Pos := sortMultiset s.val

/-- The node list of `MSTHeuristic.compute`: the remaining food followed by
the current position (`nodes.append(state.position)`). -/
def mstNodes (s : PacmanState) : List Pos := posList s.remaining_food ++ [s.position]

/-- The pairwise Manhattan weight on the indices of a node list. -/
def listWeight (L : List Pos) (i j : Fin L.length) : ℕ :=
  manhattanDist (L.get i) (L.get j)

/-- `MSTHeuristic.compute`: 0 with no food; otherwise run Prim's algorithm on
the node list, starting from the last node (the position), accumulating the
weights of the `n - 1` selected edges. -/
def mstHeuristic (s : PacmanState) : ℕ :=
  if s.remaining_food = ∅ then 0
  else
    let L := mstNodes s
    match h : L.length with
    | 0 => 0
    | k + 1 =>
      primLoop (listWeight L) k {⟨k, by omega⟩} 0

/-- `NullHeuristic.compute`. -/
def nullHeuristic (_ : PacmanState) : ℕ := 0

/-! ## Grid model, extended variant (`src/pacman_ai/src/maze.py`)

The extended maze adds moving walls, teleport pads and the power-up spawn
lists.  The teleport-pad pairing table (built from the file scan and the
default-pad fallback, which are load-time concerns) is carried as a field. -/

structure MazeX where
  grid : List (List Char)
  width : ℤ
  height : ℤ
  pacman_start : Pos
  moving_walls : Finset Pos
  teleport_pads : List (Pos × Pos)
  food_points : List Pos
  magical_pies : List Pos

namespace MazeX

/-- `self.grid[y][x]` for the extended maze. -/
def cellAt (m : MazeX) (x y : ℤ) : Char :=
  ((m.grid.getD y.toNat []).getD x.toNat ' ')

/-- `Maze.is_wall(x, y, moving_walls_active)`: out of bounds, a `'%'` cell,
or an active moving wall. -/
def is_wall (m : MazeX) (x y : ℤ) (moving_walls_active : Bool) : Bool :=
  if ¬ (0 ≤ x ∧ x < m.width ∧ 0 ≤ y ∧ y < m.height) then true
  else if m.cellAt x y = '%' then true
  else if moving_walls_active ∧ (x, y) ∈ m.moving_walls then true
  else false

/-- `Maze.check_teleport_pad`: direct lookup in the pairing table
(`self.teleport_pads.get(pos, None)`), the dict modelled as an association
list. -/
def check_teleport_pad (m : MazeX) (x y : ℤ) : Option Pos :=
  (m.teleport_pads.find? (fun pr => pr.1 == (x, y))).map (fun pr => pr.2)

/-- The cached `_corner_positions` list of `Maze.is_corner`: the four
combinations of the extremal coordinates over all non-wall cells (with
`moving_walls_active` defaulted to `True`, as in the code), or `[]` when
there is no non-wall cell. -/
def corner_positions (m : MazeX) : List Pos :=
  let nonWall : List Pos :=
    ((List.range m.height.toNat).flatMap (fun j =>
      (List.range m.width.toNat).filterMap (fun i =>
        if m.is_wall (i : ℤ) (j : ℤ) true then none else some ((i : ℤ), (j : ℤ)))))
  match nonWall with
  | [] => []
  | _ =>
    let xs := nonWall.map Prod.fst
    let ys := nonWall.map Prod.snd
    let minX := xs.foldr min (xs.headD 0)
    let maxX := xs.foldr max (xs.headD 0)
    let minY := ys.foldr min (ys.headD 0)
    let maxY := ys.foldr max (ys.headD 0)
    [(minX, minY), (minX, maxY), (maxX, minY), (maxX, maxY)]

/-- `Maze.is_corner`: non-wall and at one of the four extremal coordinate
combinations. -/
def is_corner (m : MazeX) (x y : ℤ) : Bool :=
  if m.is_wall x y true then false
  else (x, y) ∈ m.corner_positions

/-- `Maze.get_opposite_corner`: the entry at index `3 - idx` of the cached
corner list (no non-wall check on the destination). -/
def get_opposite_corner (m : MazeX) (x y : ℤ) : Option Pos :=
  if m.is_corner x y then
    m.corner_positions.get? (3 - m.corner_positions.indexOf (x, y))
  else none

/-- The direction table of `Maze.get_valid_moves`. -/
def directionsX : List PacAction := [.north, .east, .south, .west]

/-- `Maze.get_valid_moves`: each cardinal destination is kept when it is in
bounds and (walls vanished or not a wall); `('Stop', (x, y))` is appended. -/
def get_valid_moves (m : MazeX) (x y : ℤ) (walls_vanished : Bool)
    (moving_walls_active : Bool) : List (PacAction × Pos) :=
  (directionsX.filterMap (fun a =>
    if 0 ≤ x + a.delta.1 ∧ x + a.delta.1 < m.width ∧
        0 ≤ y + a.delta.2 ∧ y + a.delta.2 < m.height then
      if walls_vanished ∨ ¬ m.is_wall (x + a.delta.1) (y + a.delta.2) moving_walls_active then
        some (a, (x + a.delta.1, y + a.delta.2))
      else none
    else none)) ++ [(.stop, (x, y))]

end MazeX

/-! ## Search state and successor generator, extended variant
(`src/pacman_ai/src/pacman.py`) -/

structure PacmanStateX where
  position : Pos
  remaining_food : Finset Pos
  remaining_magical_pies : Finset Pos
  walls_vanished_steps : ℕ
  actions : List PacAction
  cost : ℕ
  ghost_positions : List Pos
  game_over : Bool
  remaining_fruits : Finset Pos
  remaining_slow_pills : Finset Pos
  remaining_speed_boosts : Finset Pos
  ghost_scared_steps : ℕ
  slow_motion_steps : ℕ
  speed_boost_steps : ℕ
  moving_walls_active : Bool
deriving DecidableEq

namespace PacmanStateX

/-- `PacmanState.__eq__` of the extended variant: besides position, food,
pies and wall-vanish steps it also compares ghost positions, game-over flag,
fruit/slow-pill/speed-boost sets, the scared/slow/boost counters and the
moving-walls flag; `actions` and `cost` are not compared. -/
def stateEqX (s t : PacmanStateX) : Prop :=
  s.position = t.position ∧
  s.remaining_food = t.remaining_food ∧
  s.remaining_magical_pies = t.remaining_magical_pies ∧
  s.walls_vanished_steps = t.walls_vanished_steps ∧
  s.ghost_positions = t.ghost_positions ∧
  s.game_over = t.game_over ∧
  s.remaining_fruits = t.remaining_fruits ∧
  s.remaining_slow_pills = t.remaining_slow_pills ∧
  s.remaining_speed_boosts = t.remaining_speed_boosts ∧
  s.ghost_scared_steps = t.ghost_scared_steps ∧
  s.slow_motion_steps = t.slow_motion_steps ∧
  s.speed_boost_steps = t.speed_boost_steps ∧
  s.moving_walls_active = t.moving_walls_active

instance (s t : PacmanStateX) : Decidable (stateEqX s t) := by
  unfold stateEqX; infer_instance

/-- `PacmanState.are_walls_vanished`. -/
def are_walls_vanished (s : PacmanStateX) : Bool := s.walls_vanished_steps > 0

/-- `PacmanState.are_ghosts_scared`. -/
def are_ghosts_scared (s : PacmanStateX) : Bool := s.ghost_scared_steps > 0

/-- `PacmanState.is_goal`. -/
def is_goal (s : PacmanStateX) : Prop := s.remaining_food = ∅ ∧ s.game_over = false

/-- `PacmanState.check_ghost_collision` reduced to its observable effect on
successor construction: Pacman collides when its position is among the ghost
positions; when scared all co-located ghosts are eaten (removed), otherwise
the state becomes game over. -/
def collides (s : PacmanStateX) : Bool := s.position ∈ s.ghost_positions

/-- The state built at the top of the `for action, (new_x, new_y)` loop of
`PacmanState.get_successor_states`: timers decremented for non-Stop actions,
action appended, cost incremented for non-Stop actions, ghosts moved for
non-Stop actions.  `ghosts` is the outcome of the stochastic `move_ghosts`
call for this candidate (the random draw abstracted as an oracle input). -/
def loop_state (s : PacmanStateX) (a : PacAction) (target : Pos)
    (ghosts : List Pos) : PacmanStateX :=
  { position := target
    remaining_food := s.remaining_food
    remaining_magical_pies := s.remaining_magical_pies
    walls_vanished_steps :=
      if a ≠ .stop then s.walls_vanished_steps - 1 else s.walls_vanished_steps
    actions := s.actions ++ [a]
    cost := s.cost + (if a = .stop then 0 else 1)
    ghost_positions := if a = .stop then s.ghost_positions else ghosts
    game_over := false
    remaining_fruits := s.remaining_fruits
    remaining_slow_pills := s.remaining_slow_pills
    remaining_speed_boosts := s.remaining_speed_boosts
    ghost_scared_steps :=
      if a ≠ .stop then s.ghost_scared_steps - 1 else s.ghost_scared_steps
    slow_motion_steps :=
      if a ≠ .stop then s.slow_motion_steps - 1 else s.slow_motion_steps
    speed_boost_steps :=
      if a ≠ .stop then s.speed_boost_steps - 1 else s.speed_boost_steps
    moving_walls_active := s.moving_walls_active }

/-- Corner teleportation followed by teleport-pad relocation, applied to the
move target `(new_x, new_y)` as in the code. -/
def teleported_position (m : MazeX) (target : Pos) : Pos :=
  let p1 : Pos :=
    if m.is_corner target.1 target.2 then
      match m.get_opposite_corner target.1 target.2 with
      | some d => d
      | none => target
    else target
  match m.check_teleport_pad target.1 target.2 with
  | some d => d
  | none => p1

/-- Food collection at the final position. -/
def collect_food (st : PacmanStateX) : PacmanStateX :=
  { st with remaining_food := st.remaining_food.erase st.position }

/-- Magical-pie collection: walls vanish for 5 steps, ghosts scared for 15. -/
def collect_pie (st : PacmanStateX) : PacmanStateX :=
  if st.position ∈ st.remaining_magical_pies then
    { st with remaining_magical_pies := st.remaining_magical_pies.erase st.position
              walls_vanished_steps := 5
              ghost_scared_steps := 15 }
  else st

/-- Fruit collection (no further effect in the code). -/
def collect_fruit (st : PacmanStateX) : PacmanStateX :=
  if st.position ∈ st.remaining_fruits then
    { st with remaining_fruits := st.remaining_fruits.erase st.position }
  else st

/-- Slow-pill collection: slow motion for 15 steps. -/
def collect_slow_pill (st : PacmanStateX) : PacmanStateX :=
  if st.position ∈ st.remaining_slow_pills then
    { st with remaining_slow_pills := st.remaining_slow_pills.erase st.position
              slow_motion_steps := 15 }
  else st

/-- Speed-boost collection: boost for 10 steps. -/
def collect_speed_boost (st : PacmanStateX) : PacmanStateX :=
  if st.position ∈ st.remaining_speed_boosts then
    { st with remaining_speed_boosts := st.remaining_speed_boosts.erase st.position
              speed_boost_steps := 10 }
  else st

/-- Ghost collision handling: eat all co-located ghosts when scared,
otherwise mark the state game over. -/
def resolve_collision (st : PacmanStateX) : PacmanStateX :=
  if st.collides then
    if st.are_ghosts_scared then
      { st with ghost_positions := st.ghost_positions.filter (fun g => g ≠ st.position) }
    else { st with game_over := true }
  else st

/-- The moving-wall toggle applied every 10 accumulated cost units of the
parent state, for non-Stop actions. -/
def toggle_walls (parentCost : ℕ) (a : PacAction) (st : PacmanStateX) : PacmanStateX :=
  if parentCost > 0 ∧ parentCost % 10 = 0 ∧ a ≠ .stop then
    { st with moving_walls_active := ¬ st.moving_walls_active }
  else st

/-- One full iteration of the successor loop of
`PacmanState.get_successor_states`, after the two wall checks have passed. -/
def build_successor (m : MazeX) (s : PacmanStateX) (a : PacAction) (target : Pos)
    (ghosts : List Pos) : PacmanStateX :=
  toggle_walls s.cost a
    (resolve_collision
      (collect_speed_boost
        (collect_slow_pill
          (collect_fruit
            (collect_pie
              (collect_food
                ({ loop_state s a target ghosts with
                    position := teleported_position m target })))))))

/-- `PacmanState.get_successor_states`, with the per-candidate random ghost
movement supplied by `oracle` (the code draws it by calling
`self.move_ghosts(maze)` inside the loop).  A candidate move is discarded
when its destination is a wall and walls are not vanished, and (the
trap-avoidance rule) when its destination is a wall and the decremented
vanish counter is zero. -/
def get_successor_states (m : MazeX) (s : PacmanStateX)
    (oracle : PacAction → List Pos) : List PacmanStateX :=
  if s.game_over then []
  else
    (m.get_valid_moves s.position.1 s.position.2 s.are_walls_vanished
        s.moving_walls_active).filterMap
      (fun mv =>
        if m.is_wall mv.2.1 mv.2.2 s.moving_walls_active ∧ ¬ s.are_walls_vanished then
          none
        else if m.is_wall mv.2.1 mv.2.2 s.moving_walls_active ∧
            s.walls_vanished_steps - 1 = 0 then
          none
        else
          some (build_successor m s mv.1 mv.2 (oracle mv.1)))

/-- One-step successor relation of the extended problem: `t` arises from `s`
under some outcome of the random ghost movement. -/
def stepRelX (m : MazeX) (s t : PacmanStateX) : Prop :=
  ∃ oracle, t ∈ get_successor_states m s oracle

/-- The initial state built by `a_star_search` (`src/pacman_ai/src/search.py`). -/
def initial_stateX (m : MazeX) : PacmanStateX :=
  { position := m.pacman_start
    remaining_food := m.food_points.toFinset
    remaining_magical_pies := m.magical_pies.toFinset
    walls_vanished_steps := 0
    actions := []
    cost := 0
    ghost_positions := []
    game_over := false
    remaining_fruits := ∅
    remaining_slow_pills := ∅
    remaining_speed_boosts := ∅
    ghost_scared_steps := 0
    slow_motion_steps := 0
    speed_boost_steps := 0
    moving_walls_active := true }

/-- States reachable from `s0` through the extended successor generator,
under arbitrary outcomes of the random draws. -/
def reachableX (m : MazeX) (s0 s : PacmanStateX) : Prop :=
  Relation.ReflTransGen (stepRelX m) s0 s

end PacmanStateX

/-! ## A* search driver, base variant (`src/search.py`)

`PriorityQueue` is `heapq` over `(priority, count, item)` tuples: popping
returns the entry with the lexicographically smallest `(priority, count)`
(counts are unique, so the item is never compared).  The embedding keeps the
frontier as a list of such entries and pops the minimum.  `explored` is a
Python set and `g_scores` a Python dict, both keyed by `PacmanState.__eq__`,
so membership and lookup here use `stateEq`. -/

/-- A frontier entry `(priority, count, state)`. -/
abbrev FrontierItem := ℕ × ℕ × PacmanState

/-- The `(priority, count)` key `heapq` compares. -/
def itemKey (it : FrontierItem) : ℕ × ℕ := (it.1, it.2.1)

/-- Strict lexicographic comparison of heap keys. -/
def keyLt (a b : ℕ × ℕ) : Prop := a.1 < b.1 ∨ (a.1 = b.1 ∧ a.2 < b.2)

instance (a b : ℕ × ℕ) : Decidable (keyLt a b) := by unfold keyLt; infer_instance

/-- The entry `heapq.heappop` would return: the one with the smallest
`(priority, count)` key. -/
def frontierMin : List FrontierItem → Option FrontierItem
  | [] => none
  | x :: xs =>
    match frontierMin xs with
    | none => some x
    | some y => if keyLt (itemKey y) (itemKey x) then some y else some x

/-- `PriorityQueue.pop`: the minimum entry and the remaining frontier. -/
def popMinFrontier (fr : List FrontierItem) : Option (FrontierItem × List FrontierItem) :=
  match frontierMin fr with
  | none => none
  | some x => some (x, fr.erase x)

/-- The result triple of `AStarSearch.search`: `(path, actions, cost)` on
success, `(None, None, float('inf'))` on exhaustion. -/
abbrev AStarResult := Option (List PacmanState) × Option (List PacAction) × ℕ∞

/-- The exhaustion sentinel `(None, None, float('inf'))`. -/
def failSentinel : AStarResult := (none, none, ⊤)

/-- The success value `(self._reconstruct_path(...), state.path,
state.path_cost)`; `_reconstruct_path` returns `[goal_state]`. -/
def successResult (s : PacmanState) : AStarResult :=
  (some [s], some s.path, (s.path_cost : ℕ∞))

/-- Accumulator of the successor-expansion loop: the frontier, the push
counter, and the `g_scores` association list. -/
abbrev ExpandAcc := List FrontierItem × ℕ × List (PacmanState × ℕ)

/-- One iteration of the `for next_state, action, cost in get_successors`
loop of `AStarSearch.search`: skip states in `explored`; skip when a better
or equal `g_score` is known; otherwise record the new `g_score` and push with
priority `g + h`. -/
def expandStep (h : PacmanState → ℕ) (st : PacmanState) (expl : List PacmanState)
    (acc : ExpandAcc) (succ : PacmanState × PacAction × ℕ) : ExpandAcc :=
  if expl.any (fun e => e.stateEqb succ.1) then acc
  else
    match acc.2.2.find? (fun e => e.1.stateEqb succ.1) with
    | some e =>
      if e.2 ≤ st.path_cost + succ.2.2 then acc
      else (acc.1 ++ [(st.path_cost + succ.2.2 + h succ.1, acc.2.1, succ.1)],
        acc.2.1 + 1, (succ.1, st.path_cost + succ.2.2) :: acc.2.2)
    | none =>
      (acc.1 ++ [(st.path_cost + succ.2.2 + h succ.1, acc.2.1, succ.1)],
        acc.2.1 + 1, (succ.1, st.path_cost + succ.2.2) :: acc.2.2)

/-- The `while not frontier.is_empty()` loop of `AStarSearch.search`, with
explicit fuel (`none` = fuel ran out with the loop still running; the loop
itself returns `some` of the code's return value). -/
def astarLoop (m : Maze) (h : PacmanState → ℕ) :
    ℕ → List FrontierItem → ℕ → List PacmanState → List (PacmanState × ℕ) →
    Option AStarResult
  | 0, _, _, _, _ => none
  | fuel + 1, fr, cnt, expl, gs =>
    match popMinFrontier fr with
    | none => some failSentinel
    | some (it, fr1) =>
      if it.2.2.is_goal_state then some (successResult it.2.2)
      else
        astarLoop m h fuel
          ((m.get_successors it.2.2).foldl
            (expandStep h it.2.2 (it.2.2 :: expl)) (fr1, cnt, gs)).1
          ((m.get_successors it.2.2).foldl
            (expandStep h it.2.2 (it.2.2 :: expl)) (fr1, cnt, gs)).2.1
          (it.2.2 :: expl)
          ((m.get_successors it.2.2).foldl
            (expandStep h it.2.2 (it.2.2 :: expl)) (fr1, cnt, gs)).2.2

/-- `AStarSearch.search`: push the start state with priority `h(start)`,
record `g_scores[start] = 0`, and run the loop. -/
def astar (m : Maze) (h : PacmanState → ℕ) (fuel : ℕ) : Option AStarResult :=
  astarLoop m h fuel [(h m.initial_state, 0, m.initial_state)] 1 [] [(m.initial_state, 0)]

/-! ## Graphs over ordered-pair edge sets, and the minimum-spanning-tree weight

The specification describes the MST heuristic as the total weight of a
minimum spanning tree of the complete graph over `{position} ∪ remainingFood`
with Manhattan edge weights.  We formalise spanning trees of a complete graph
over a finite vertex set `P` as finite sets `E` of (ordered, undirectedly
interpreted) vertex pairs that connect every two members of `P` and have
exactly `|P| - 1` edges, and the MST weight as the minimum total weight over
all of them. -/

section EdgeGraphs

variable {V : Type} [DecidableEq V]

/-- One undirected step along an edge set: either orientation is in `E`. -/
def edgeStep (E : Finset (V × V)) (a b : V) : Prop := (a, b) ∈ E ∨ (b, a) ∈ E

/-- Reachability along the edges of `E`. -/
def edgeReach (E : Finset (V × V)) (a b : V) : Prop :=
  Relation.ReflTransGen (edgeStep E) a b

/-- Total weight of an edge set. -/
def edgeWeight (w : V → V → ℕ) (E : Finset (V × V)) : ℕ := ∑ e ∈ E, w e.1 e.2

/-- All edges of `E` stay inside the vertex set `P`. -/
def edgeWithin (E : Finset (V × V)) (P : Finset V) : Prop :=
  ∀ e ∈ E, e.1 ∈ P ∧ e.2 ∈ P

/-- `E` connects every two vertices of `P`. -/
def connOn (E : Finset (V × V)) (P : Finset V) : Prop :=
  ∀ a ∈ P, ∀ b ∈ P, edgeReach E a b

/-- `E` is a spanning tree of the complete graph on `P`: its edges stay in
`P`, they connect all of `P`, and there are exactly `|P| - 1` of them (a
connected spanning subgraph with `|P| - 1` edges is precisely a spanning
tree). -/
def spanningTreeOn (E : Finset (V × V)) (P : Finset V) : Prop :=
  edgeWithin E P ∧ connOn E P ∧ E.card + 1 = P.card

/-- The minimum total weight of a spanning tree of the complete graph on `P`
under the edge weight `w`. -/
noncomputable def mstWeight (w : V → V → ℕ) (P : Finset V) : ℕ :=
  sInf {c | ∃ E, spanningTreeOn E P ∧ edgeWeight w E = c}

/-- The simple graph with an edge between the endpoints of every
non-degenerate pair of `E` (used to borrow walk/path machinery). -/
def graphOf (E : Finset (V × V)) : SimpleGraph V where
  Adj a b := a ≠ b ∧ edgeStep E a b
  symm := by
    intro a b h
    refine ⟨Ne.symm h.1, h.2.elim Or.inr Or.inl⟩
  loopless := by intro a h; exact h.1 rfl

end EdgeGraphs

/-- The MST weight the specification ascribes to the MST heuristic: minimum
spanning tree of the complete graph over `{position} ∪ remainingFood` with
Manhattan-distance edge weights. -/
noncomputable def mstSpecWeight (p : Pos) (food : Finset Pos) : ℕ :=
  mstWeight manhattanDist (insert p food)

/-- Some index of a point in the node list (any index for non-members). -/
noncomputable def idxIn (L : List Pos) (hn : 0 < L.length) (p : Pos) : Fin L.length :=
  if h : p ∈ L then (List.mem_iff_get.mp h).choose else ⟨0, hn⟩

/-! ## Executing action sequences (base variant)

`trueOptimalCostToGoal` in the specification quantifies over the action
sequences admitted by the successor generator; we execute a list of actions
through `get_successors`, following the successor labelled with each action. -/

/-- The successor of `s` labelled `a`, if `a` is generated. -/
def stepAction (m : Maze) (s : PacmanState) (a : PacAction) : Option PacmanState :=
  match (m.get_successors s).find? (fun x => x.2.1 == a) with
  | some x => some x.1
  | none => none

/-- Run a list of actions from `s`; `none` if some action is not generated. -/
def execPlan (m : Maze) : PacmanState → List PacAction → Option PacmanState
  | s, [] => some s
  | s, a :: rest =>
    match stepAction m s a with
    | some t => execPlan m t rest
    | none => none

/-- The positions visited while running a plan (cut short if an action is
not generated). -/
def tracePositions (m : Maze) : PacmanState → List PacAction → List Pos
  | s, [] => [s.position]
  | s, a :: rest =>
    match stepAction m s a with
    | some t => s.position :: tracePositions m t rest
    | none => [s.position]

/-! ## The corner set described by the specification (for comparison)

The specification says corners are "the non-wall cells matching the four
extremal `(min-x,min-y)/(min-x,max-y)/(max-x,min-y)/(max-x,max-y)` points"
taken over all non-wall cells.  The following definition renders those words
for the base-variant maze, to compare against `Maze.identify_corners`. -/

/-- All in-bounds non-wall cells of a base-variant maze. -/
def nonWallCells (m : Maze) : List Pos :=
  (List.range m.height.toNat).flatMap (fun j =>
    (List.range m.width.toNat).filterMap (fun i =>
      if m.is_wall (i : ℤ) (j : ℤ) then none else some ((i : ℤ), (j : ℤ))))

/-- The corner set as described by the specification: non-wall cells whose
coordinates match one of the four extremal coordinate pairs over non-wall
cells. -/
def specCornerSet (m : Maze) : Finset Pos :=
  match nonWallCells m with
  | [] => ∅
  | c :: rest =>
    let l := c :: rest
    let minX := (l.map Prod.fst).foldr min c.1
    let maxX := (l.map Prod.fst).foldr max c.1
    let minY := (l.map Prod.snd).foldr min c.2
    let maxY := (l.map Prod.snd).foldr max c.2
    (l.filter (fun p =>
      p = (minX, minY) ∨ p = (minX, maxY) ∨ p = (maxX, minY) ∨ p = (maxX, maxY))).toFinset

/-- The number of non-Stop actions in an action list. -/
def countNonStop (l : List PacAction) : ℕ := (l.filter (fun a => a ≠ .stop)).length

/-! ## Concrete mazes and states used by counterexamples and witnesses -/

/-- A 3-by-1 base maze `P% ` (start, wall, open). -/
def exMazeWall : Maze where
  grid := [['P', '%', ' ']]
  width := 3
  height := 1
  pacman_start := (0, 0)
  food_positions := ∅
  magical_pie_positions := ∅

/-- A state at the start of `exMazeWall` with one wall-pass step left. -/
def exState1 : PacmanState where
  position := (0, 0)
  remaining_food := ∅
  remaining_pies := ∅
  wall_pass_steps := 1
  path := []
  path_cost := 0

/-- A 7-by-7 open base maze. -/
def exMaze7 : Maze where
  grid := List.replicate 7 (List.replicate 7 ' ')
  width := 7
  height := 7
  pacman_start := (0, 0)
  food_positions := {(3, 1), (5, 3), (3, 5), (1, 3)}
  magical_pie_positions := ∅

/-- A state of `exMaze7` at `(4, 3)` with four food cells arranged around
`(3, 3)`. -/
def exStateA : PacmanState where
  position := (4, 3)
  remaining_food := {(3, 1), (5, 3), (3, 5), (1, 3)}
  remaining_pies := ∅
  wall_pass_steps := 0
  path := []
  path_cost := 0

/-- A 4-by-3 fully open base maze with start `(1, 0)` and food on the corner
`(3, 2)` (teleportation is active: all four grid corners are open). -/
def exMazeTele : Maze where
  grid := List.replicate 3 (List.replicate 4 ' ')
  width := 4
  height := 3
  pacman_start := (1, 0)
  food_positions := {(3, 2)}
  magical_pie_positions := ∅

/-- A state of `exMazeTele` at `(2, 0)` one step from the teleporting corner
`(3, 0)`, with the food at the opposite corner. -/
def exStateC : PacmanState where
  position := (2, 0)
  remaining_food := {(3, 2)}
  remaining_pies := ∅
  wall_pass_steps := 0
  path := []
  path_cost := 0

/-- A 4-by-3 base maze with a solid wall border (so no corner is open and
teleportation is disabled), start `(1, 1)` and food at `(2, 1)`. -/
def exMazeWalled : Maze where
  grid := [['%','%','%','%'], ['%','P','.','%'], ['%','%','%','%']]
  width := 4
  height := 3
  pacman_start := (1, 1)
  food_positions := {(2, 1)}
  magical_pie_positions := ∅

/-- A 1-by-1 base maze with no food at all. -/
def exMazeNoFood : Maze where
  grid := [['P']]
  width := 1
  height := 1
  pacman_start := (0, 0)
  food_positions := ∅
  magical_pie_positions := ∅

/-- A 2-by-1 base maze `P.`. -/
def exMazeTiny : Maze where
  grid := [['P', '.']]
  width := 2
  height := 1
  pacman_start := (0, 0)
  food_positions := {(1, 0)}
  magical_pie_positions := ∅

/-- A 3-by-3 base maze whose only open cells are `(0, 0)` and `(1, 1)`: the
grid-corner list of `identify_corners` has exactly one member while the
extremal non-wall cells of the specification are two. -/
def exMazeC9 : Maze where
  grid := [[' ','%','%'], ['%','P','%'], ['%','%','%']]
  width := 3
  height := 3
  pacman_start := (1, 1)
  food_positions := ∅
  magical_pie_positions := ∅

/-- A 1-by-1 open base maze (used for the legal-move counterexample). -/
def exMazeOne : Maze where
  grid := [[' ']]
  width := 1
  height := 1
  pacman_start := (0, 0)
  food_positions := ∅
  magical_pie_positions := ∅

/-- Two base states with identical position, food, pies and wall-pass
counters but different paths and path costs. -/
def exStateP1 : PacmanState where
  position := (0, 0)
  remaining_food := {(1, 0)}
  remaining_pies := ∅
  wall_pass_steps := 0
  path := []
  path_cost := 0

/-- See `exStateP1`. -/
def exStateP2 : PacmanState where
  position := (0, 0)
  remaining_food := {(1, 0)}
  remaining_pies := ∅
  wall_pass_steps := 0
  path := [.stop, .stop]
  path_cost := 2

/-- A 9-by-9 base maze with a solid wall border and an open 7-by-7 interior:
all grid corners are walls, so teleportation is disabled. -/
def exMaze9 : Maze where
  grid := [List.replicate 9 '%'] ++
    List.replicate 7 (['%'] ++ List.replicate 7 ' ' ++ ['%']) ++
    [List.replicate 9 '%']
  width := 9
  height := 9
  pacman_start := (1, 1)
  food_positions := {(4, 2), (6, 4), (4, 6), (2, 4)}
  magical_pie_positions := ∅

/-- A state of `exMaze9` at `(5, 4)` with the four food cells arranged around
`(4, 4)`. -/
def exStateB : PacmanState where
  position := (5, 4)
  remaining_food := {(4, 2), (6, 4), (4, 6), (2, 4)}
  remaining_pies := ∅
  wall_pass_steps := 0
  path := []
  path_cost := 0

/-- A 1-by-2 fully open extended maze. -/
def exMazeX2 : MazeX where
  grid := [['P', ' ']]
  width := 2
  height := 1
  pacman_start := (0, 0)
  moving_walls := ∅
  teleport_pads := []
  food_points := []
  magical_pies := []

/-- An extended state at the start of `exMazeX2` with empty collections. -/
def exStateX0 : PacmanStateX := PacmanStateX.initial_stateX exMazeX2

/-- An extended state with one ghost, otherwise like `exStateX0`. -/
def exStateX1 : PacmanStateX := { exStateX0 with ghost_positions := [(1, 0)] }

/-! # Theorems

From here on the file contains only lemmas and the claim theorems,
witnesses and counterexamples. -/

theorem manhattanDist_comm (p q : Pos) : manhattanDist p q = manhattanDist q p := by
  unfold manhattanDist
  rw [← Int.natAbs_neg (p.1 - q.1), ← Int.natAbs_neg (p.2 - q.2)]
  simp [neg_sub]

theorem manhattanDist_self (p : Pos) : manhattanDist p p = 0 := by
  simp [manhattanDist]

theorem manhattanDist_triangle (p q r : Pos) :
    manhattanDist p r ≤ manhattanDist p q + manhattanDist q r := by
  unfold manhattanDist
  have h1 : p.1 - r.1 = (p.1 - q.1) + (q.1 - r.1) := by ring
  have h2 : p.2 - r.2 = (p.2 - q.2) + (q.2 - r.2) := by ring
  rw [h1, h2]
  calc ((p.1 - q.1) + (q.1 - r.1)).natAbs + ((p.2 - q.2) + (q.2 - r.2)).natAbs
      ≤ ((p.1 - q.1).natAbs + (q.1 - r.1).natAbs) +
        ((p.2 - q.2).natAbs + (q.2 - r.2).natAbs) :=
        Nat.add_le_add (Int.natAbs_add_le _ _) (Int.natAbs_add_le _ _)
    _ = _ := by ring

theorem sortMultiset_coe (m : Multiset Pos) : (sortMultiset m : Multiset Pos) = m := by
  refine Quot.inductionOn m ?_
  intro l
  exact Quot.sound (List.perm_insertionSort posLe l)

theorem posList_nodup (s : Finset Pos) : (posList s).Nodup := by
  rw [← Multiset.coe_nodup]
  unfold posList
  rw [sortMultiset_coe]
  exact s.nodup

theorem mem_posList (s : Finset Pos) (p : Pos) : p ∈ posList s ↔ p ∈ s := by
  unfold posList
  rw [← Multiset.mem_coe, sortMultiset_coe]
  exact Iff.rfl

theorem posList_length (s : Finset Pos) : (posList s).length = s.card := by
  have h := congrArg Multiset.card (sortMultiset_coe s.val)
  rw [Multiset.coe_card] at h
  exact h

theorem posList_toFinset (s : Finset Pos) : (posList s).toFinset = s := by
  ext p
  simp [mem_posList]


/-! ## C3: state identity -/

/-- C3 (counterexample): two extended-variant states with identical
`(position, remainingFood, remainingPies, abilitySteps)` but different ghost
lists do **not** compare equal, so the claimed four-field "iff" fails for the
extended variant's `__eq__`. -/
theorem c3_counterexample :
    exStateX0.position = exStateX1.position ∧
    exStateX0.remaining_food = exStateX1.remaining_food ∧
    exStateX0.remaining_magical_pies = exStateX1.remaining_magical_pies ∧
    exStateX0.walls_vanished_steps = exStateX1.walls_vanished_steps ∧
    ¬ PacmanStateX.stateEqX exStateX0 exStateX1 := by
  decide

/-- C3 (amended): in the base variant, `__eq__` holds iff position, remaining
food, remaining pies and the wall-pass counter agree (the `path` and
`path_cost` fields are excluded), and equal states have equal hash keys; in
the extended variant, `__eq__` additionally requires the ghost positions,
game-over flag, fruit/slow-pill/speed-boost sets, the scared/slow/boost
counters and the moving-walls flag to agree. -/
theorem c3_state_identity :
    (∀ s t : PacmanState, PacmanState.stateEq s t ↔
      (s.position = t.position ∧ s.remaining_food = t.remaining_food ∧
        s.remaining_pies = t.remaining_pies ∧ s.wall_pass_steps = t.wall_pass_steps)) ∧
    (∀ s t : PacmanState, PacmanState.stateEq s t →
      PacmanState.hashKey s = PacmanState.hashKey t) ∧
    (∀ s t : PacmanStateX, PacmanStateX.stateEqX s t ↔
      (s.position = t.position ∧ s.remaining_food = t.remaining_food ∧
        s.remaining_magical_pies = t.remaining_magical_pies ∧
        s.walls_vanished_steps = t.walls_vanished_steps ∧
        s.ghost_positions = t.ghost_positions ∧ s.game_over = t.game_over ∧
        s.remaining_fruits = t.remaining_fruits ∧
        s.remaining_slow_pills = t.remaining_slow_pills ∧
        s.remaining_speed_boosts = t.remaining_speed_boosts ∧
        s.ghost_scared_steps = t.ghost_scared_steps ∧
        s.slow_motion_steps = t.slow_motion_steps ∧
        s.speed_boost_steps = t.speed_boost_steps ∧
        s.moving_walls_active = t.moving_walls_active)) := by
  refine ⟨fun s t => Iff.rfl, fun s t h => ?_, fun s t => Iff.rfl⟩
  obtain ⟨h1, h2, h3, h4⟩ := h
  simp [PacmanState.hashKey, h1, h2, h3, h4]

/-- Witness for C3: two concrete states differing only in path and path cost
compare equal and have the same hash key. -/
theorem c3_state_identity_witness :
    PacmanState.stateEq exStateP1 exStateP2 ∧
    PacmanState.hashKey exStateP1 = PacmanState.hashKey exStateP2 :=
  ⟨by decide, c3_state_identity.2.1 exStateP1 exStateP2 (by decide)⟩

/-! ## C1 and C2, base-variant counterexamples -/

/-- C1 (counterexample): in the base variant, a successor whose destination
is a wall cell with the post-move wall-pass counter equal to 0 is generated,
not discarded: from `(0,0)` with one wall-pass step in `P% `, the East
successor sits on the wall `(1,0)` with 0 steps left. -/
theorem c1_counterexample :
    (exMazeWall.apply_move exState1 .east, PacAction.east, 1) ∈
      exMazeWall.get_successors exState1 ∧
    exMazeWall.is_wall (exMazeWall.apply_move exState1 .east).position.1
      (exMazeWall.apply_move exState1 .east).position.2 = true ∧
    (exMazeWall.apply_move exState1 .east).wall_pass_steps = 0 := by
  decide

/-- C2 (counterexample): in the base variant, the Stop successor is charged
cost 1 (not 0) and its wall-pass counter is decremented (not left
unchanged). -/
theorem c2_counterexample :
    (exMazeWall.apply_move exState1 .stop, PacAction.stop, 1) ∈
      exMazeWall.get_successors exState1 ∧
    (exMazeWall.apply_move exState1 .stop).path_cost = exState1.path_cost + 1 ∧
    exState1.wall_pass_steps = 1 ∧
    (exMazeWall.apply_move exState1 .stop).wall_pass_steps = 0 := by
  decide

/-! ## Field lemmas for the extended successor construction -/

namespace PacmanStateX

theorem collect_food_fields (st : PacmanStateX) :
    (collect_food st).position = st.position ∧
    (collect_food st).cost = st.cost ∧
    (collect_food st).actions = st.actions ∧
    (collect_food st).walls_vanished_steps = st.walls_vanished_steps ∧
    (collect_food st).remaining_magical_pies = st.remaining_magical_pies := by
  unfold collect_food
  exact ⟨rfl, rfl, rfl, rfl, rfl⟩

theorem collect_pie_fields (st : PacmanStateX) :
    (collect_pie st).position = st.position ∧
    (collect_pie st).cost = st.cost ∧
    (collect_pie st).actions = st.actions ∧
    (collect_pie st).walls_vanished_steps =
      (if st.position ∈ st.remaining_magical_pies then 5 else st.walls_vanished_steps) := by
  unfold collect_pie
  split <;> simp_all

theorem collect_fruit_fields (st : PacmanStateX) :
    (collect_fruit st).position = st.position ∧
    (collect_fruit st).cost = st.cost ∧
    (collect_fruit st).actions = st.actions ∧
    (collect_fruit st).walls_vanished_steps = st.walls_vanished_steps := by
  unfold collect_fruit
  split <;> simp_all

theorem collect_slow_pill_fields (st : PacmanStateX) :
    (collect_slow_pill st).position = st.position ∧
    (collect_slow_pill st).cost = st.cost ∧
    (collect_slow_pill st).actions = st.actions ∧
    (collect_slow_pill st).walls_vanished_steps = st.walls_vanished_steps := by
  unfold collect_slow_pill
  split <;> simp_all

theorem collect_speed_boost_fields (st : PacmanStateX) :
    (collect_speed_boost st).position = st.position ∧
    (collect_speed_boost st).cost = st.cost ∧
    (collect_speed_boost st).actions = st.actions ∧
    (collect_speed_boost st).walls_vanished_steps = st.walls_vanished_steps := by
  unfold collect_speed_boost
  split <;> simp_all

theorem resolve_collision_fields (st : PacmanStateX) :
    (resolve_collision st).position = st.position ∧
    (resolve_collision st).cost = st.cost ∧
    (resolve_collision st).actions = st.actions ∧
    (resolve_collision st).walls_vanished_steps = st.walls_vanished_steps := by
  unfold resolve_collision
  split <;> [skip; exact ⟨rfl, rfl, rfl, rfl⟩]
  split <;> exact ⟨rfl, rfl, rfl, rfl⟩

theorem toggle_walls_fields (c : ℕ) (a : PacAction) (st : PacmanStateX) :
    (toggle_walls c a st).position = st.position ∧
    (toggle_walls c a st).cost = st.cost ∧
    (toggle_walls c a st).actions = st.actions ∧
    (toggle_walls c a st).walls_vanished_steps = st.walls_vanished_steps := by
  unfold toggle_walls
  split <;> exact ⟨rfl, rfl, rfl, rfl⟩

/-- The observable fields of a constructed successor: its position is the
teleported move target, its action list appends the move's action, its cost
grows by 1 exactly for non-Stop actions, and its vanish counter is 5 if a pie
sits at the final position, otherwise the (for non-Stop actions decremented)
parent counter. -/
theorem build_successor_fields (m : MazeX) (s : PacmanStateX) (a : PacAction)
    (target : Pos) (ghosts : List Pos) :
    (build_successor m s a target ghosts).position = teleported_position m target ∧
    (build_successor m s a target ghosts).cost =
      s.cost + (if a = .stop then 0 else 1) ∧
    (build_successor m s a target ghosts).actions = s.actions ++ [a] ∧
    (build_successor m s a target ghosts).walls_vanished_steps =
      (if teleported_position m target ∈ s.remaining_magical_pies then 5
       else if a = .stop then s.walls_vanished_steps else s.walls_vanished_steps - 1) := by
  unfold build_successor
  set st1 : PacmanStateX :=
    { loop_state s a target ghosts with position := teleported_position m target } with hst1
  obtain ⟨f1, f2, f3, f4, f5⟩ := collect_food_fields st1
  obtain ⟨g1, g2, g3, g4⟩ := collect_pie_fields (collect_food st1)
  obtain ⟨u1, u2, u3, u4⟩ := collect_fruit_fields (collect_pie (collect_food st1))
  obtain ⟨v1, v2, v3, v4⟩ :=
    collect_slow_pill_fields (collect_fruit (collect_pie (collect_food st1)))
  obtain ⟨w1, w2, w3, w4⟩ :=
    collect_speed_boost_fields
      (collect_slow_pill (collect_fruit (collect_pie (collect_food st1))))
  obtain ⟨r1, r2, r3, r4⟩ :=
    resolve_collision_fields
      (collect_speed_boost
        (collect_slow_pill (collect_fruit (collect_pie (collect_food st1)))))
  obtain ⟨t1, t2, t3, t4⟩ :=
    toggle_walls_fields s.cost a
      (resolve_collision
        (collect_speed_boost
          (collect_slow_pill (collect_fruit (collect_pie (collect_food st1))))))
  refine ⟨?_, ?_, ?_, ?_⟩
  · rw [t1, r1, w1, v1, u1, g1, f1]
  · rw [t2, r2, w2, v2, u2, g2, f2]
    rfl
  · rw [t3, r3, w3, v3, u3, g3, f3]
    rfl
  · rw [t4, r4, w4, v4, u4, g4, f4, f1, f5]
    by_cases hp : teleported_position m target ∈ s.remaining_magical_pies
    · simp [hst1, hp, loop_state]
    · simp only [hst1, loop_state, hp, if_false]
      by_cases ha : a = .stop <;> simp [ha]

end PacmanStateX

namespace MazeX

/-- The Stop entry is always in `get_valid_moves`. -/
theorem stop_mem_get_valid_moves (m : MazeX) (x y : ℤ) (wv mwa : Bool) :
    (PacAction.stop, (x, y)) ∈ m.get_valid_moves x y wv mwa := by
  unfold get_valid_moves
  exact List.mem_append_right _ (List.mem_singleton.mpr rfl)

/-- Membership in `get_valid_moves`, forward direction: an entry is either
the Stop entry or a cardinal direction pointing at its in-bounds,
passable-or-vanished destination. -/
theorem mem_get_valid_moves_elim (m : MazeX) (x y : ℤ) (wv mwa : Bool)
    (mv : PacAction × Pos) (h : mv ∈ m.get_valid_moves x y wv mwa) :
    mv = (.stop, (x, y)) ∨
      (mv.1 ≠ .stop ∧ mv.2 = (x + mv.1.delta.1, y + mv.1.delta.2) ∧
        (0 ≤ mv.2.1 ∧ mv.2.1 < m.width ∧ 0 ≤ mv.2.2 ∧ mv.2.2 < m.height) ∧
        (wv = true ∨ m.is_wall mv.2.1 mv.2.2 mwa = false)) := by
  unfold get_valid_moves at h
  rcases List.mem_append.mp h with h | h
  · right
    rw [List.mem_filterMap] at h
    obtain ⟨a, ha, hfa⟩ := h
    have hdeltas : a = .north ∨ a = .east ∨ a = .south ∨ a = .west := by
      simpa [directionsX] using ha
    split_ifs at hfa with h1 h2
    cases hfa
    refine ⟨?_, rfl, by simpa using h1, ?_⟩
    · rcases hdeltas with rfl | rfl | rfl | rfl <;> simp
    · rcases h2 with h2 | h2
      · exact Or.inl (by simpa using h2)
      · exact Or.inr (by simpa using h2)
  · left
    simpa using h

/-- Membership in `get_valid_moves` for a cardinal direction with its
canonical destination. -/
theorem cardinal_mem_get_valid_moves (m : MazeX) (x y : ℤ) (wv mwa : Bool)
    (a : PacAction) (hne : a ≠ .stop) :
    (a, (x + a.delta.1, y + a.delta.2)) ∈ m.get_valid_moves x y wv mwa ↔
      ((0 ≤ x + a.delta.1 ∧ x + a.delta.1 < m.width ∧
        0 ≤ y + a.delta.2 ∧ y + a.delta.2 < m.height) ∧
        (wv = true ∨ m.is_wall (x + a.delta.1) (y + a.delta.2) mwa = false)) := by
  constructor
  · intro h
    rcases mem_get_valid_moves_elim m x y wv mwa _ h with h | h
    · exact absurd (congrArg Prod.fst h) hne
    · exact ⟨h.2.2.1, h.2.2.2⟩
  · rintro ⟨hb, hw⟩
    unfold get_valid_moves
    refine List.mem_append_left _ ?_
    rw [List.mem_filterMap]
    refine ⟨a, ?_, ?_⟩
    · cases a <;> simp [directionsX] at hne ⊢
    · rw [if_pos (by simpa using hb), if_pos ?_]
      rcases hw with hw | hw
      · exact Or.inl (by simp [hw])
      · exact Or.inr (by simp [hw])

/-- A statically walled cell (out of bounds or `'%'`) is a wall for either
state of the moving walls. -/
theorem is_wall_static_mono (m : MazeX) (x y : ℤ) (b : Bool)
    (h : m.is_wall x y false = true) : m.is_wall x y b = true := by
  unfold is_wall at h ⊢
  split_ifs at h ⊢ with h1 h2 h3 <;> simp_all

end MazeX

namespace PacmanStateX

/-- Decomposition of membership in `get_successor_states`: the parent is not
game over, and the successor is built from a valid move that passed both the
wall check and the trap-avoidance check. -/
theorem mem_get_successor_states_elim (m : MazeX) (s : PacmanStateX)
    (oracle : PacAction → List Pos) (t : PacmanStateX)
    (h : t ∈ get_successor_states m s oracle) :
    s.game_over = false ∧
      ∃ mv ∈ m.get_valid_moves s.position.1 s.position.2 s.are_walls_vanished
          s.moving_walls_active,
        ¬ (m.is_wall mv.2.1 mv.2.2 s.moving_walls_active = true ∧
            ¬ s.are_walls_vanished = true) ∧
        ¬ (m.is_wall mv.2.1 mv.2.2 s.moving_walls_active = true ∧
            s.walls_vanished_steps - 1 = 0) ∧
        t = build_successor m s mv.1 mv.2 (oracle mv.1) := by
  unfold get_successor_states at h
  split_ifs at h with hgo
  · simp at h
  · refine ⟨by simpa using hgo, ?_⟩
    rw [List.mem_filterMap] at h
    obtain ⟨mv, hmv, hf⟩ := h
    refine ⟨mv, hmv, ?_⟩
    split_ifs at hf with h1 h2
    cases hf
    exact ⟨h1, h2, rfl⟩

/-- The possible outcomes of the teleport relocation: the target itself, a
member of the cached corner list, or the destination of a teleport pad. -/
theorem teleported_position_cases (m : MazeX) (target : Pos) :
    teleported_position m target = target ∨
      (teleported_position m target ∈ m.corner_positions) ∨
      (∃ pr ∈ m.teleport_pads, teleported_position m target = pr.2) := by
  unfold teleported_position
  cases hpad : m.check_teleport_pad target.1 target.2 with
  | some d =>
    right; right
    unfold MazeX.check_teleport_pad at hpad
    cases hfind : m.teleport_pads.find? (fun pr => pr.1 == (target.1, target.2)) with
    | none => rw [hfind] at hpad; simp at hpad
    | some pr =>
      rw [hfind] at hpad
      simp at hpad
      exact ⟨pr, List.mem_of_find?_eq_some hfind, hpad.symm⟩
  | none =>
    split_ifs with hc
    · cases hopp : m.get_opposite_corner target.1 target.2 with
      | some d =>
        right; left
        unfold MazeX.get_opposite_corner at hopp
        rw [if_pos hc] at hopp
        exact List.get?_mem hopp
      | none => left; rfl
    · left; rfl

end PacmanStateX

/-! ## C1 (amended) and C2 (amended): extended-variant semantics -/

/-- C1 (amended): in the extended variant, every generated successor comes
from a valid move that passed the trap-avoidance check (its destination is
not a wall with the decremented vanish counter 0), and — provided every
cached corner position and every teleport-pad destination is statically
non-wall and the start state is not already trapped — no state reachable
through the extended generator has its position on a statically walled cell
(out of bounds or `'%'`) with a zero vanish counter.  (The base variant
performs no such discard; see the counterexample.) -/
theorem c1_trap_avoidance :
    (∀ (m : MazeX) (oracle : PacAction → List Pos) (s t : PacmanStateX),
      t ∈ PacmanStateX.get_successor_states m s oracle →
        ∃ mv ∈ m.get_valid_moves s.position.1 s.position.2 s.are_walls_vanished
            s.moving_walls_active,
          ¬ (m.is_wall mv.2.1 mv.2.2 s.moving_walls_active = true ∧
              s.walls_vanished_steps - 1 = 0) ∧
          t = PacmanStateX.build_successor m s mv.1 mv.2 (oracle mv.1)) ∧
    (∀ m : MazeX,
      (∀ p ∈ m.corner_positions, m.is_wall p.1 p.2 false = false) →
      (∀ pr ∈ m.teleport_pads, m.is_wall pr.2.1 pr.2.2 false = false) →
      ∀ s0 : PacmanStateX,
        ¬ (m.is_wall s0.position.1 s0.position.2 false = true ∧
            s0.walls_vanished_steps = 0) →
        ∀ s, PacmanStateX.reachableX m s0 s →
          ¬ (m.is_wall s.position.1 s.position.2 false = true ∧
              s.walls_vanished_steps = 0)) := by
  have step_inv : ∀ (m : MazeX),
      (∀ p ∈ m.corner_positions, m.is_wall p.1 p.2 false = false) →
      (∀ pr ∈ m.teleport_pads, m.is_wall pr.2.1 pr.2.2 false = false) →
      ∀ (oracle : PacAction → List Pos) (s t : PacmanStateX),
        t ∈ PacmanStateX.get_successor_states m s oracle →
        ¬ (m.is_wall t.position.1 t.position.2 false = true ∧
            t.walls_vanished_steps = 0) := by
    intro m hcorner hpad oracle s t ht
    obtain ⟨-, mv, hmv, hc1, hc2, rfl⟩ :=
      PacmanStateX.mem_get_successor_states_elim m s oracle t ht
    obtain ⟨hposn, -, -, hsteps⟩ :=
      PacmanStateX.build_successor_fields m s mv.1 mv.2 (oracle mv.1)
    rintro ⟨hw, hz⟩
    rw [hposn] at hw
    rw [hsteps] at hz
    by_cases hpie : PacmanStateX.teleported_position m mv.2 ∈ s.remaining_magical_pies
    · rw [if_pos hpie] at hz
      exact absurd hz (by decide)
    · rw [if_neg hpie] at hz
      have hz1 : s.walls_vanished_steps - 1 = 0 := by
        by_cases hstop : mv.1 = PacAction.stop
        · rw [if_pos hstop] at hz; omega
        · rw [if_neg hstop] at hz; omega
      rcases PacmanStateX.teleported_position_cases m mv.2 with htp | htp | ⟨pr, hpr, htp⟩
      · rw [htp] at hw
        have hwall := m.is_wall_static_mono mv.2.1 mv.2.2 s.moving_walls_active hw
        exact hc2 ⟨hwall, hz1⟩
      · exact absurd hw (by simp [hcorner _ htp])
      · rw [htp] at hw
        exact absurd hw (by simp [hpad _ hpr])
  constructor
  · intro m oracle s t ht
    obtain ⟨-, mv, hmv, -, hc2, rfl⟩ :=
      PacmanStateX.mem_get_successor_states_elim m s oracle t ht
    exact ⟨mv, hmv, hc2, rfl⟩
  · intro m hcorner hpad s0 h0 s hreach
    induction hreach with
    | refl => exact h0
    | tail hab hstep ih =>
      obtain ⟨oracle, hmem⟩ := hstep
      exact step_inv m hcorner hpad oracle _ _ hmem

/-- Witness for C1: in the open 1-by-2 extended maze, every hypothesis of the
trap-avoidance theorem holds and the initial state (and hence every reachable
state) is never on a static wall with a zero vanish counter. -/
theorem c1_trap_avoidance_witness :
    ¬ (exMazeX2.is_wall exStateX0.position.1 exStateX0.position.2 false = true ∧
        exStateX0.walls_vanished_steps = 0) :=
  c1_trap_avoidance.2 exMazeX2 (by decide) (by decide) exStateX0 (by decide)
    exStateX0 Relation.ReflTransGen.refl

/-- Counting non-Stop actions: appending one action adds its cost. -/
theorem countNonStop_append (l : List PacAction) (a : PacAction) :
    countNonStop (l ++ [a]) = countNonStop l + (if a = .stop then 0 else 1) := by
  unfold countNonStop
  rw [List.filter_append]
  by_cases ha : a = .stop
  · subst ha; simp
  · rw [List.length_append]
    congr 1
    cases a <;> simp_all

/-- C2 (amended): in the extended variant, every successor appends exactly
one action; a Stop successor keeps the parent's cost and (unless a magical
pie is collected at the resulting position) the parent's vanish counter,
while a non-Stop successor costs exactly one more; consequently, along any
reachable path the cost equals the number of non-Stop actions taken.  (In
the base variant every action, Stop included, is charged cost 1 and
decrements the counter; see the counterexample.) -/
theorem c2_stop_cost_semantics :
    (∀ (m : MazeX) (oracle : PacAction → List Pos) (s t : PacmanStateX),
      t ∈ PacmanStateX.get_successor_states m s oracle →
        ∃ a : PacAction, t.actions = s.actions ++ [a] ∧
          (a = .stop → t.cost = s.cost ∧
            (t.position ∉ s.remaining_magical_pies →
              t.walls_vanished_steps = s.walls_vanished_steps)) ∧
          (a ≠ .stop → t.cost = s.cost + 1)) ∧
    (∀ (m : MazeX) (s0 s : PacmanStateX), PacmanStateX.reachableX m s0 s →
      s0.cost = countNonStop s0.actions → s.cost = countNonStop s.actions) := by
  have part1 : ∀ (m : MazeX) (oracle : PacAction → List Pos) (s t : PacmanStateX),
      t ∈ PacmanStateX.get_successor_states m s oracle →
        ∃ a : PacAction, t.actions = s.actions ++ [a] ∧
          (a = .stop → t.cost = s.cost ∧
            (t.position ∉ s.remaining_magical_pies →
              t.walls_vanished_steps = s.walls_vanished_steps)) ∧
          (a ≠ .stop → t.cost = s.cost + 1) := by
    intro m oracle s t ht
    obtain ⟨-, mv, hmv, -, -, rfl⟩ :=
      PacmanStateX.mem_get_successor_states_elim m s oracle t ht
    obtain ⟨hposn, hcost, hact, hsteps⟩ :=
      PacmanStateX.build_successor_fields m s mv.1 mv.2 (oracle mv.1)
    refine ⟨mv.1, hact, fun hstop => ⟨?_, fun hnopie => ?_⟩, fun hnstop => ?_⟩
    · rw [hcost, if_pos hstop]
      omega
    · rw [hposn] at hnopie
      rw [hsteps, if_neg hnopie, if_pos hstop]
    · rw [hcost, if_neg hnstop]
  refine ⟨part1, ?_⟩
  intro m s0 s hreach h0
  induction hreach with
  | refl => exact h0
  | tail hab hstep ih =>
    obtain ⟨oracle, hmem⟩ := hstep
    obtain ⟨a, hact, hstopc, hnstopc⟩ := part1 m oracle _ _ hmem
    rw [hact, countNonStop_append]
    by_cases ha : a = .stop
    · rw [if_pos ha, (hstopc ha).1, ih]
      omega
    · rw [if_neg ha, hnstopc ha, ih]

/-- Witness for C2: a concrete Stop successor in the extended 1-by-2 maze
keeps cost and vanish counter, and the cost of the initial state equals its
non-Stop action count. -/
theorem c2_stop_cost_semantics_witness :
    (∃ a : PacAction,
      (PacmanStateX.build_successor exMazeX2 exStateX0 .stop (0, 0) []).actions =
        exStateX0.actions ++ [a] ∧
      (a = .stop →
        (PacmanStateX.build_successor exMazeX2 exStateX0 .stop (0, 0) []).cost =
          exStateX0.cost ∧
        ((PacmanStateX.build_successor exMazeX2 exStateX0 .stop (0, 0) []).position ∉
            exStateX0.remaining_magical_pies →
          (PacmanStateX.build_successor exMazeX2 exStateX0 .stop (0, 0) []).walls_vanished_steps =
            exStateX0.walls_vanished_steps)) ∧
      (a ≠ .stop →
        (PacmanStateX.build_successor exMazeX2 exStateX0 .stop (0, 0) []).cost =
          exStateX0.cost + 1)) ∧
    exStateX0.cost = countNonStop exStateX0.actions :=
  ⟨c2_stop_cost_semantics.1 exMazeX2 (fun _ => []) exStateX0
      (PacmanStateX.build_successor exMazeX2 exStateX0 .stop (0, 0) []) (by decide),
    c2_stop_cost_semantics.2 exMazeX2 exStateX0 exStateX0 Relation.ReflTransGen.refl
      (by decide)⟩

/-! ## C7: legal-move enumeration -/

/-- C7 (counterexample): in the base variant, with `can_pass_walls = True`
the out-of-bounds West destination `(-1, 0)` is returned from `(0, 0)` of a
1-by-1 maze, contradicting "no out-of-bounds destination is ever returned,
even when wallsPassable is true". -/
theorem c7_counterexample :
    PacAction.west ∈ exMazeOne.get_legal_moves 0 0 true ∧
    (0 : ℤ) + PacAction.west.delta.1 = -1 ∧
    ¬ (0 ≤ (-1 : ℤ)) := by
  decide

/-- C7 (amended): the extended variant's `get_valid_moves` satisfies the
claim as stated: it always contains the Stop entry, contains a cardinal
destination iff it is within grid bounds and (walls vanished or not a wall),
and never returns an out-of-bounds destination.  The base variant's
`get_legal_moves` instead admits a cardinal move iff its destination is not
a wall **or** `can_pass_walls` is set, where out-of-bounds counts as wall —
so with the flag set, out-of-bounds destinations pass the test. -/
theorem c7_legal_moves :
    (∀ (m : MazeX) (x y : ℤ) (wv mwa : Bool),
      ((PacAction.stop, (x, y)) ∈ m.get_valid_moves x y wv mwa) ∧
      (∀ a : PacAction, a ≠ .stop →
        ((a, (x + a.delta.1, y + a.delta.2)) ∈ m.get_valid_moves x y wv mwa ↔
          ((0 ≤ x + a.delta.1 ∧ x + a.delta.1 < m.width ∧
            0 ≤ y + a.delta.2 ∧ y + a.delta.2 < m.height) ∧
            (wv = true ∨ m.is_wall (x + a.delta.1) (y + a.delta.2) mwa = false)))) ∧
      (∀ mv ∈ m.get_valid_moves x y wv mwa, mv.2 = (x, y) ∨
        (0 ≤ mv.2.1 ∧ mv.2.1 < m.width ∧ 0 ≤ mv.2.2 ∧ mv.2.2 < m.height))) ∧
    (∀ (m : Maze) (x y : ℤ) (cp : Bool),
      (PacAction.stop ∈ m.get_legal_moves x y cp) ∧
      (∀ a : PacAction, a ≠ .stop →
        (a ∈ m.get_legal_moves x y cp ↔
          (m.is_wall (x + a.delta.1) (y + a.delta.2) = false ∨ cp = true)))) := by
  constructor
  · intro m x y wv mwa
    refine ⟨m.stop_mem_get_valid_moves x y wv mwa,
      fun a ha => m.cardinal_mem_get_valid_moves x y wv mwa a ha, ?_⟩
    intro mv hmv
    rcases m.mem_get_valid_moves_elim x y wv mwa mv hmv with h | h
    · exact Or.inl (congrArg Prod.snd h)
    · exact Or.inr h.2.2.1
  · intro m x y cp
    constructor
    · unfold Maze.get_legal_moves
      rw [List.mem_filter]
      exact ⟨by simp [Maze.all_moves], by simp⟩
    · intro a ha
      unfold Maze.get_legal_moves
      rw [List.mem_filter]
      constructor
      · rintro ⟨-, hp⟩
        rw [if_neg ha] at hp
        simpa using hp
      · intro h
        refine ⟨by cases a <;> simp [Maze.all_moves], ?_⟩
        rw [if_neg ha]
        simpa using h

/-- Witness for C7: concrete instantiations of both characterizations. -/
theorem c7_legal_moves_witness :
    ((PacAction.east, ((0 : ℤ) + PacAction.east.delta.1,
        (0 : ℤ) + PacAction.east.delta.2)) ∈ exMazeX2.get_valid_moves 0 0 false true ↔
      ((0 ≤ (0 : ℤ) + PacAction.east.delta.1 ∧ (0 : ℤ) + PacAction.east.delta.1 < exMazeX2.width ∧
        0 ≤ (0 : ℤ) + PacAction.east.delta.2 ∧ (0 : ℤ) + PacAction.east.delta.2 < exMazeX2.height) ∧
        (false = true ∨ exMazeX2.is_wall ((0 : ℤ) + PacAction.east.delta.1)
          ((0 : ℤ) + PacAction.east.delta.2) true = false))) ∧
    (PacAction.east ∈ exMazeWall.get_legal_moves 0 0 true ↔
      (exMazeWall.is_wall ((0 : ℤ) + PacAction.east.delta.1)
        ((0 : ℤ) + PacAction.east.delta.2) = false ∨ true = true)) :=
  ⟨(c7_legal_moves.1 exMazeX2 0 0 false true).2.1 .east (by decide),
    (c7_legal_moves.2 exMazeWall 0 0 true).2 .east (by decide)⟩

/-! ## C9: the corner set -/

/-- C9 (counterexample): in `exMazeC9` (open cells `(0,0)` and `(1,1)` only),
the base variant's corner list is `[(0, 0)]`: its size is 1 (neither 0, 2
nor 4), and it disagrees with the specification's corner set — the non-wall
cells matching the extremal coordinate pairs over non-wall cells — which is
`{(0, 0), (1, 1)}`. -/
theorem c9_counterexample :
    exMazeC9.identify_corners = [(0, 0)] ∧
    specCornerSet exMazeC9 = {(0, 0), (1, 1)} ∧
    ¬ (exMazeC9.identify_corners.length = 0 ∨ exMazeC9.identify_corners.length = 2 ∨
        exMazeC9.identify_corners.length = 4) ∧
    ((1, 1) : Pos) ∈ specCornerSet exMazeC9 ∧
    ((1, 1) : Pos) ∉ exMazeC9.identify_corners := by
  decide

/-- C9 (amended): for every base-variant maze, the computed corner list
consists exactly of the non-wall cells among the four **grid-corner**
coordinates `(0,0)`, `(w-1,0)`, `(0,h-1)`, `(w-1,h-1)` (not the extremal
coordinates of the non-wall region), kept in order with multiplicity; its
length is at most 4 (any value from 0 to 4 can occur); and teleportation is
disabled — `get_teleport_destination` always returns `None` — whenever the
list has fewer than 2 members. -/
theorem c9_corner_set (m : Maze) :
    (∀ p : Pos, p ∈ m.identify_corners ↔
      (p ∈ m.potential_corners ∧ m.is_wall p.1 p.2 = false)) ∧
    m.identify_corners.length ≤ 4 ∧
    (m.identify_corners.length < 2 →
      ∀ x y : ℤ, m.get_teleport_destination x y = none) := by
  refine ⟨?_, ?_, ?_⟩
  · intro p
    unfold Maze.identify_corners
    rw [List.mem_filter]
    simp
  · have h := List.length_filter_le (fun p : Pos => ¬ m.is_wall p.1 p.2) m.potential_corners
    simpa [Maze.identify_corners, Maze.potential_corners] using h
  · intro hlen x y
    unfold Maze.get_teleport_destination
    rw [if_pos hlen]

/-- Witness for C9: in the wall-bordered maze the corner list is empty, so
teleportation is disabled. -/
theorem c9_corner_set_witness :
    exMazeWalled.get_teleport_destination 1 1 = none :=
  (c9_corner_set exMazeWalled).2.2 (by decide) 1 1

/-! ## A* driver lemmas, C8 and C10 -/

theorem frontierMin_mem (fr : List FrontierItem) (x : FrontierItem)
    (h : frontierMin fr = some x) : x ∈ fr := by
  induction fr generalizing x with
  | nil => simp [frontierMin] at h
  | cons y ys ih =>
    unfold frontierMin at h
    cases hys : frontierMin ys with
    | none => rw [hys] at h; cases h; exact List.mem_cons_self _ _
    | some z =>
      rw [hys] at h
      dsimp only at h
      split_ifs at h
      · cases h; exact List.mem_cons_of_mem _ (ih _ hys)
      · cases h; exact List.mem_cons_self _ _

theorem popMinFrontier_mem (fr : List FrontierItem) (it : FrontierItem)
    (fr1 : List FrontierItem) (h : popMinFrontier fr = some (it, fr1)) :
    it ∈ fr ∧ ∀ x ∈ fr1, x ∈ fr := by
  unfold popMinFrontier at h
  cases hmin : frontierMin fr with
  | none => rw [hmin] at h; cases h
  | some x =>
    rw [hmin] at h
    dsimp only at h
    cases h
    exact ⟨frontierMin_mem fr _ hmin, fun y hy => List.erase_subset _ _ hy⟩

/-- The expansion step only ever appends items whose state is one of the
supplied successors. -/
theorem expandStep_frontier_inv (P : PacmanState → Prop) (h : PacmanState → ℕ)
    (st : PacmanState) (expl : List PacmanState) (acc : ExpandAcc)
    (succ : PacmanState × PacAction × ℕ) (hacc : ∀ it ∈ acc.1, P it.2.2)
    (hsucc : P succ.1) : ∀ it ∈ (expandStep h st expl acc succ).1, P it.2.2 := by
  unfold expandStep
  split_ifs with hexp
  · exact hacc
  · cases hfind : acc.2.2.find? (fun e => e.1.stateEqb succ.1) with
    | some e =>
      dsimp only
      split_ifs with hge
      · exact hacc
      · intro it hit
        rcases List.mem_append.mp hit with hh | hh
        · exact hacc it hh
        · rw [List.mem_singleton.mp hh]; exact hsucc
    | none =>
      intro it hit
      rcases List.mem_append.mp hit with hh | hh
      · exact hacc it hh
      · rw [List.mem_singleton.mp hh]; exact hsucc

theorem expand_foldl_frontier_inv (P : PacmanState → Prop) (h : PacmanState → ℕ)
    (st : PacmanState) (expl : List PacmanState) :
    ∀ (succs : List (PacmanState × PacAction × ℕ)) (acc : ExpandAcc),
      (∀ it ∈ acc.1, P it.2.2) → (∀ x ∈ succs, P x.1) →
      ∀ it ∈ (succs.foldl (expandStep h st expl) acc).1, P it.2.2 := by
  intro succs
  induction succs with
  | nil => intro acc hacc _ it hit; exact hacc it hit
  | cons x xs ih =>
    intro acc hacc hsucc
    rw [List.foldl_cons]
    exact ih _ (expandStep_frontier_inv P h st expl acc x hacc
      (hsucc x (List.mem_cons_self _ _))) (fun y hy => hsucc y (List.mem_cons_of_mem _ hy))

/-- Every terminating run of the A* loop returns either the exhaustion
sentinel or the success triple of a popped goal state. -/
theorem astarLoop_outcomes (m : Maze) (h : PacmanState → ℕ) :
    ∀ (fuel : ℕ) (fr : List FrontierItem) (cnt : ℕ) (expl : List PacmanState)
      (gs : List (PacmanState × ℕ)) (r : AStarResult),
      astarLoop m h fuel fr cnt expl gs = some r →
      r = failSentinel ∨ ∃ st, st.is_goal_state ∧ r = successResult st := by
  intro fuel
  induction fuel with
  | zero => intro fr cnt expl gs r hr; cases hr
  | succ n ih =>
    intro fr cnt expl gs r hr
    unfold astarLoop at hr
    cases hpop : popMinFrontier fr with
    | none => rw [hpop] at hr; cases hr; exact Or.inl rfl
    | some pr =>
      obtain ⟨it, fr1⟩ := pr
      rw [hpop] at hr
      dsimp only at hr
      split_ifs at hr with hgoal
      · cases hr; exact Or.inr ⟨it.2.2, hgoal, rfl⟩
      · exact ih _ _ _ _ _ hr

/-- Every terminating run whose frontier holds only reachable states returns
the sentinel or the success triple of a reachable goal state. -/
theorem astarLoop_outcomes_reachable (m : Maze) (h : PacmanState → ℕ) :
    ∀ (fuel : ℕ) (fr : List FrontierItem) (cnt : ℕ) (expl : List PacmanState)
      (gs : List (PacmanState × ℕ)) (r : AStarResult),
      (∀ it ∈ fr, m.reachable it.2.2) →
      astarLoop m h fuel fr cnt expl gs = some r →
      r = failSentinel ∨ ∃ st, m.reachable st ∧ st.is_goal_state ∧ r = successResult st := by
  intro fuel
  induction fuel with
  | zero => intro fr cnt expl gs r _ hr; cases hr
  | succ n ih =>
    intro fr cnt expl gs r hfr hr
    unfold astarLoop at hr
    cases hpop : popMinFrontier fr with
    | none => rw [hpop] at hr; cases hr; exact Or.inl rfl
    | some pr =>
      obtain ⟨it, fr1⟩ := pr
      rw [hpop] at hr
      dsimp only at hr
      have hmem := popMinFrontier_mem fr it fr1 hpop
      have hreach : m.reachable it.2.2 := hfr _ hmem.1
      split_ifs at hr with hgoal
      · cases hr; exact Or.inr ⟨it.2.2, hreach, hgoal, rfl⟩
      · refine ih _ _ _ _ _ ?_ hr
        refine expand_foldl_frontier_inv (m.reachable) h it.2.2 _ _ _ ?_ ?_
        · exact fun x hx => hfr x (hmem.2 x hx)
        · intro x hx
          exact Relation.ReflTransGen.tail hreach ⟨x, hx, rfl⟩

theorem popMinFrontier_singleton (x : FrontierItem) : popMinFrontier [x] = some (x, []) := by
  simp [popMinFrontier, frontierMin, List.erase_cons_head]

/-- C8 (confirmed): when the frontier is empty the A* driver returns the
`(None, None, inf)` sentinel (no exception); every terminating run returns
either that sentinel or the success triple of a popped goal state; the
sentinel differs from every success triple; and on a problem whose start
state already has no food the driver immediately returns the zero-cost
success result (distinct from the sentinel). -/
theorem c8_search_exhaustion :
    (∀ (m : Maze) (h : PacmanState → ℕ) (fuel cnt : ℕ) (expl : List PacmanState)
        (gs : List (PacmanState × ℕ)),
      astarLoop m h (fuel + 1) [] cnt expl gs = some failSentinel) ∧
    (∀ (m : Maze) (h : PacmanState → ℕ) (fuel : ℕ) (fr : List FrontierItem)
        (cnt : ℕ) (expl : List PacmanState) (gs : List (PacmanState × ℕ))
        (r : AStarResult),
      astarLoop m h fuel fr cnt expl gs = some r →
      r = failSentinel ∨ ∃ st, st.is_goal_state ∧ r = successResult st) ∧
    (∀ st : PacmanState, failSentinel ≠ successResult st) ∧
    (∀ (m : Maze) (h : PacmanState → ℕ) (fuel : ℕ), m.food_positions = ∅ →
      astar m h (fuel + 1) = some (successResult m.initial_state) ∧
      m.initial_state.path = [] ∧ m.initial_state.path_cost = 0) := by
  refine ⟨?_, ?_, ?_, ?_⟩
  · intro m h fuel cnt expl gs
    rfl
  · intro m h fuel fr cnt expl gs r hr
    exact astarLoop_outcomes m h fuel fr cnt expl gs r hr
  · intro st h
    simp [failSentinel, successResult] at h
  · intro m h fuel hfood
    have hg : m.initial_state.is_goal_state := hfood
    refine ⟨?_, rfl, rfl⟩
    unfold astar astarLoop
    split
    · rename_i heq
      rw [popMinFrontier_singleton] at heq
      cases heq
    · rename_i it fr1 heq
      rw [popMinFrontier_singleton] at heq
      cases heq
      rw [if_pos hg]

/-- Witness for C8: a terminated concrete run is covered by the outcome
characterization, and the no-food 1-by-1 maze yields the zero-cost success
result at once. -/
theorem c8_search_exhaustion_witness :
    (failSentinel = failSentinel ∨
      ∃ st, st.is_goal_state ∧ failSentinel = successResult st) ∧
    astar exMazeNoFood nullHeuristic 1 = some (successResult exMazeNoFood.initial_state) :=
  ⟨c8_search_exhaustion.2.1 exMazeNoFood nullHeuristic 1 [] 0 [] [] failSentinel rfl,
    (c8_search_exhaustion.2.2.2 exMazeNoFood nullHeuristic 0 rfl).1⟩

/-- C10 (confirmed): along the base variant's successor relation every
reachable state's `path_cost` equals the length of its action list (every
action, Stop included, appends one action and costs 1), and accordingly a
successful search returns a cost equal to the length of the returned action
sequence. -/
theorem c10_cost_counts_all_actions :
    (∀ (m : Maze) (s : PacmanState), m.reachable s → s.path_cost = s.path.length) ∧
    (∀ (m : Maze) (h : PacmanState → ℕ) (fuel : ℕ) (p : List PacmanState)
        (acts : List PacAction) (c : ℕ∞),
      astar m h fuel = some (some p, some acts, c) → c = (acts.length : ℕ∞)) := by
  have part1 : ∀ (m : Maze) (s : PacmanState), m.reachable s →
      s.path_cost = s.path.length := by
    intro m s hreach
    induction hreach with
    | refl => rfl
    | tail hab hstep ih =>
      obtain ⟨x, hx, rfl⟩ := hstep
      obtain ⟨a, ha, rfl⟩ := List.mem_map.mp hx
      simp [Maze.apply_move, ih]
  refine ⟨part1, ?_⟩
  intro m h fuel p acts c hr
  have hfr : ∀ it ∈ [(h m.initial_state, 0, m.initial_state)], m.reachable it.2.2 := by
    intro it hit
    rw [List.mem_singleton.mp hit]
    exact Relation.ReflTransGen.refl
  rcases astarLoop_outcomes_reachable m h fuel _ _ _ _ _ hfr hr with hfail | ⟨st, hreach, -, hsucc⟩
  · simp [failSentinel] at hfail
  · simp only [successResult, Prod.mk.injEq, Option.some.injEq] at hsucc
    rw [hsucc.2.2, hsucc.2.1, part1 m st hreach]

/-- Witness for C10: the initial state satisfies the invariant, and the
concrete search on the 2-cell maze `P.` returns cost 1 for the single-action
sequence `[East]`. -/
theorem c10_cost_counts_all_actions_witness :
    (exMazeTiny.initial_state.path_cost = exMazeTiny.initial_state.path.length) ∧
    ((1 : ℕ∞) = (([PacAction.east].length : ℕ) : ℕ∞)) :=
  ⟨c10_cost_counts_all_actions.1 exMazeTiny exMazeTiny.initial_state
      Relation.ReflTransGen.refl,
    c10_cost_counts_all_actions.2 exMazeTiny nullHeuristic 2
      [exMazeTiny.apply_move exMazeTiny.initial_state .east] [PacAction.east] 1
      (by decide)⟩

/-! ## Graph lemmas for the MST development -/

section EdgeGraphLemmas

set_option linter.unusedSectionVars false

variable {V : Type} [DecidableEq V]

theorem edgeStep_symm {E : Finset (V × V)} {a b : V} (h : edgeStep E a b) :
    edgeStep E b a := h.elim Or.inr Or.inl

theorem edgeStep_endpoints {E : Finset (V × V)} {P : Finset V}
    (hE : edgeWithin E P) {a b : V} (h : edgeStep E a b) : a ∈ P ∧ b ∈ P := by
  rcases h with h | h
  · exact ⟨(hE _ h).1, (hE _ h).2⟩
  · exact ⟨(hE _ h).2, (hE _ h).1⟩

theorem edgeReach_refl {E : Finset (V × V)} (a : V) : edgeReach E a a :=
  Relation.ReflTransGen.refl

theorem edgeReach_symm {E : Finset (V × V)} {a b : V} (h : edgeReach E a b) :
    edgeReach E b a :=
  Relation.ReflTransGen.symmetric (fun _ _ hs => edgeStep_symm hs) h

theorem edgeReach_trans {E : Finset (V × V)} {a b c : V} (h1 : edgeReach E a b)
    (h2 : edgeReach E b c) : edgeReach E a c := h1.trans h2

theorem edgeReach_single {E : Finset (V × V)} {a b : V} (h : edgeStep E a b) :
    edgeReach E a b := Relation.ReflTransGen.single h

theorem edgeStep_mono {E F : Finset (V × V)} (hEF : E ⊆ F) {a b : V}
    (h : edgeStep E a b) : edgeStep F a b := h.imp (fun hh => hEF hh) (fun hh => hEF hh)

theorem edgeReach_mono {E F : Finset (V × V)} (hEF : E ⊆ F) {a b : V}
    (h : edgeReach E a b) : edgeReach F a b := by
  induction h with
  | refl => exact edgeReach_refl _
  | tail hab hstep ih => exact ih.tail (edgeStep_mono hEF hstep)

/-- Reachability transfers along any map of the edge relation into
reachability of another edge set. -/
theorem edgeReach_lift {E F : Finset (V × V)}
    (hlift : ∀ a b, edgeStep E a b → edgeReach F a b) {x y : V}
    (h : edgeReach E x y) : edgeReach F x y := by
  induction h with
  | refl => exact edgeReach_refl _
  | tail hab hstep ih => exact ih.trans (hlift _ _ hstep)

theorem edgeWeight_subset_le {w : V → V → ℕ} {E F : Finset (V × V)} (h : E ⊆ F) :
    edgeWeight w E ≤ edgeWeight w F :=
  Finset.sum_le_sum_of_subset h

theorem graphOf_adj {E : Finset (V × V)} {a b : V} :
    (graphOf E).Adj a b ↔ a ≠ b ∧ edgeStep E a b := Iff.rfl

theorem graphOf_reachable_of_edgeReach {E : Finset (V × V)} {a b : V}
    (h : edgeReach E a b) : (graphOf E).Reachable a b := by
  induction h with
  | refl => exact SimpleGraph.Reachable.refl _
  | tail hab hstep ih =>
    rename_i b' c'
    by_cases hbc : b' = c'
    · exact hbc ▸ ih
    · exact ih.trans ((graphOf_adj.mpr ⟨hbc, hstep⟩).reachable)

theorem edgeReach_of_graphOf_walk {E : Finset (V × V)} {a b : V}
    (p : (graphOf E).Walk a b) : edgeReach E a b := by
  induction p with
  | nil => exact edgeReach_refl _
  | cons h p ih => exact (edgeReach_single h.2).trans ih

/-- A path from inside `S` to outside `S` contains a crossing edge, and the
path's two halves avoid that edge. -/
theorem walk_crossing {E : Finset (V × V)} (S : Finset V) :
    ∀ {u v : V} (p : (graphOf E).Walk u v), p.IsPath → u ∈ S → v ∉ S →
      ∃ (a b : V) (q : (graphOf E).Walk u a) (r : (graphOf E).Walk b v),
        a ∈ S ∧ b ∉ S ∧ (graphOf E).Adj a b ∧
        s(a, b) ∉ q.edges ∧ s(a, b) ∉ r.edges := by
  intro u v p
  induction p with
  | nil => intro _ hu hv; exact absurd hu hv
  | cons h p ih =>
    rename_i x c y
    intro hp hu hv
    by_cases hc : c ∈ S
    · obtain ⟨a, b, q, r, ha, hb, hadj, hq, hr⟩ := ih hp.of_cons hc hv
      refine ⟨a, b, SimpleGraph.Walk.cons h q, r, ha, hb, hadj, ?_, hr⟩
      rw [SimpleGraph.Walk.edges_cons, List.mem_cons]
      rintro (habs | habs)
      · rw [Sym2.eq_iff] at habs
        rcases habs with ⟨hax, hbc⟩ | ⟨hac, hbx⟩
        · exact hb (by rw [hbc]; exact hc)
        · exact hb (by rw [hbx]; exact hu)
      · exact hq habs
    · refine ⟨x, c, SimpleGraph.Walk.nil, p, hu, hc, h, by simp, ?_⟩
      have hnd := hp.isTrail.edges_nodup
      rw [SimpleGraph.Walk.edges_cons, List.nodup_cons] at hnd
      exact hnd.1

end EdgeGraphLemmas

section ExchangeLemma

set_option linter.unusedSectionVars false

variable {V : Type} [DecidableEq V]

/-- Adjacency survives erasing an edge with a different underlying pair. -/
theorem adj_erase_of_ne {T : Finset (V × V)} {f0 : V × V} {a b x y : V}
    (hf0 : f0 = (a, b) ∨ f0 = (b, a)) (hadj : (graphOf T).Adj x y)
    (hne : s(x, y) ≠ s(a, b)) : (graphOf (T.erase f0)).Adj x y := by
  refine ⟨hadj.1, ?_⟩
  have hxyab : (x, y) ≠ f0 := by
    rcases hf0 with rfl | rfl
    · intro hh
      exact hne (by rw [Prod.mk.injEq] at hh; rw [hh.1, hh.2])
    · intro hh
      rw [Prod.mk.injEq] at hh
      exact hne (by rw [hh.1, hh.2, Sym2.eq_swap])
  have hyxab : (y, x) ≠ f0 := by
    rcases hf0 with rfl | rfl
    · intro hh
      rw [Prod.mk.injEq] at hh
      exact hne (by rw [hh.1, hh.2, Sym2.eq_swap])
    · intro hh
      exact hne (by rw [Prod.mk.injEq] at hh; rw [hh.1, hh.2])
  rcases hadj.2 with hh | hh
  · exact Or.inl (Finset.mem_erase.mpr ⟨hxyab, hh⟩)
  · exact Or.inr (Finset.mem_erase.mpr ⟨hyxab, hh⟩)

/-- The exchange step of Prim's correctness proof: given a minimum-weight
candidate cut edge `(u, v)` out of the visited set `S` and any spanning tree
`T` of `P` containing all previously picked edges (which lie inside `S`),
some spanning tree of no greater weight contains the picked edges and
`(u, v)`. -/
theorem tree_exchange {w : V → V → ℕ} (hw : ∀ a b, w a b = w b a)
    (P S : Finset V) (T picked : Finset (V × V)) (u v : V)
    (hT : spanningTreeOn T P) (hsub : picked ⊆ T)
    (hpicked : ∀ e ∈ picked, e.1 ∈ S ∧ e.2 ∈ S)
    (hu : u ∈ S) (hv : v ∉ S) (huP : u ∈ P) (hvP : v ∈ P)
    (hmin : ∀ a ∈ S, ∀ b, b ∉ S → w u v ≤ w a b) :
    ∃ T2, spanningTreeOn T2 P ∧ edgeWeight w T2 ≤ edgeWeight w T ∧
      insert (u, v) picked ⊆ T2 := by
  obtain ⟨hwithin, hconn, hcard⟩ := hT
  by_cases huvT : (u, v) ∈ T
  · refine ⟨T, ⟨hwithin, hconn, hcard⟩, le_refl _, ?_⟩
    intro e he
    rcases Finset.mem_insert.mp he with rfl | he
    · exact huvT
    · exact hsub he
  by_cases hvuT : (v, u) ∈ T
  · -- reorient the edge (v, u) to (u, v): same weight, same connectivity
    refine ⟨insert (u, v) (T.erase (v, u)), ⟨?_, ?_, ?_⟩, ?_, ?_⟩
    · intro e he
      rcases Finset.mem_insert.mp he with rfl | he
      · exact ⟨huP, hvP⟩
      · exact hwithin e (Finset.mem_of_mem_erase he)
    · -- connectivity via step equivalence
      have hstep : ∀ a b : V, edgeStep T a b →
          edgeReach (insert (u, v) (T.erase (v, u))) a b := by
        intro a b hab
        apply edgeReach_single
        rcases hab with hh | hh
        · by_cases hvu : (a, b) = (v, u)
          · rw [Prod.mk.injEq] at hvu
            rw [hvu.1, hvu.2]
            exact Or.inr (Finset.mem_insert_self _ _)
          · exact Or.inl (Finset.mem_insert_of_mem (Finset.mem_erase.mpr ⟨hvu, hh⟩))
        · by_cases hvu : (b, a) = (v, u)
          · rw [Prod.mk.injEq] at hvu
            rw [hvu.1, hvu.2]
            exact Or.inl (Finset.mem_insert_self _ _)
          · exact Or.inr (Finset.mem_insert_of_mem (Finset.mem_erase.mpr ⟨hvu, hh⟩))
      intro x hx y hy
      exact edgeReach_lift hstep (hconn x hx y hy)
    · -- cardinality is unchanged
      have h1 : (u, v) ∉ T.erase (v, u) := fun hh => huvT (Finset.mem_of_mem_erase hh)
      rw [Finset.card_insert_of_not_mem h1, Finset.card_erase_of_mem hvuT]
      have : 1 ≤ T.card := Finset.card_pos.mpr ⟨(v, u), hvuT⟩
      omega
    · -- weight is unchanged
      have h1 : (u, v) ∉ T.erase (v, u) := fun hh => huvT (Finset.mem_of_mem_erase hh)
      rw [edgeWeight, Finset.sum_insert h1]
      rw [show (∑ e ∈ T.erase (v, u), w e.1 e.2) = edgeWeight w (T.erase (v, u)) from rfl]
      calc w u v + edgeWeight w (T.erase (v, u))
          = w v u + edgeWeight w (T.erase (v, u)) := by rw [hw u v]
        _ = edgeWeight w T := Finset.add_sum_erase T (fun e => w e.1 e.2) hvuT
        _ ≤ edgeWeight w T := le_refl _
    · intro e he
      rcases Finset.mem_insert.mp he with rfl | he
      · exact Finset.mem_insert_self _ _
      · refine Finset.mem_insert_of_mem (Finset.mem_erase.mpr ⟨?_, hsub he⟩)
        intro hh
        exact hv (by rw [hh] at he; exact (hpicked _ he).1)
  · -- genuine exchange along the tree path from u to v
    obtain ⟨p0⟩ := graphOf_reachable_of_edgeReach (hconn u huP v hvP)
    obtain ⟨a, b, q, r, ha, hb, hadj, hq, hr⟩ :=
      walk_crossing S (p0.toPath : (graphOf T).Path u v).1
        (p0.toPath : (graphOf T).Path u v).2 hu hv
    have hbP : b ∈ P := (edgeStep_endpoints hwithin hadj.2).2
    set f0 : V × V := if (a, b) ∈ T then (a, b) else (b, a) with hf0def
    have hf0or : f0 = (a, b) ∨ f0 = (b, a) := by
      rw [hf0def]; split_ifs <;> simp
    have hf0T : f0 ∈ T := by
      rw [hf0def]
      split_ifs with hh
      · exact hh
      · rcases hadj.2 with h1 | h1
        · exact absurd h1 hh
        · exact h1
    have hf0w : w f0.1 f0.2 = w a b := by
      rcases hf0or with hh | hh <;> rw [hh]
      exact hw b a
    have huvE : (u, v) ∉ T.erase f0 := fun hh => huvT (Finset.mem_of_mem_erase hh)
    have hwalkq : ∀ e ∈ q.edges, e ∈ (graphOf (T.erase f0)).edgeSet := by
      intro e he
      induction e with
      | _ x y =>
        rw [SimpleGraph.mem_edgeSet]
        refine adj_erase_of_ne hf0or
          ((SimpleGraph.mem_edgeSet _).mp (q.edges_subset_edgeSet he)) ?_
        intro hh
        exact hq (hh ▸ he)
    have hwalkr : ∀ e ∈ r.edges, e ∈ (graphOf (T.erase f0)).edgeSet := by
      intro e he
      induction e with
      | _ x y =>
        rw [SimpleGraph.mem_edgeSet]
        refine adj_erase_of_ne hf0or
          ((SimpleGraph.mem_edgeSet _).mp (r.edges_subset_edgeSet he)) ?_
        intro hh
        exact hr (hh ▸ he)
    have hqreach : edgeReach (T.erase f0) u a :=
      edgeReach_of_graphOf_walk (q.transfer (graphOf (T.erase f0)) hwalkq)
    have hrreach : edgeReach (T.erase f0) b v :=
      edgeReach_of_graphOf_walk (r.transfer (graphOf (T.erase f0)) hwalkr)
    have herase_sub : T.erase f0 ⊆ insert (u, v) (T.erase f0) :=
      Finset.subset_insert _ _
    have hab2 : edgeReach (insert (u, v) (T.erase f0)) a b := by
      refine (edgeReach_symm (edgeReach_mono herase_sub hqreach)).trans ?_
      refine (edgeReach_single (Or.inl (Finset.mem_insert_self _ _))).trans ?_
      exact edgeReach_symm (edgeReach_mono herase_sub hrreach)
    have hlift : ∀ c d : V, edgeStep T c d →
        edgeReach (insert (u, v) (T.erase f0)) c d := by
      intro c d hcd
      rcases hcd with hh | hh
      · by_cases hcf : (c, d) = f0
        · rcases hf0or with hff | hff
          · rw [hff] at hcf
            rw [Prod.mk.injEq] at hcf
            rw [hcf.1, hcf.2]
            exact hab2
          · rw [hff] at hcf
            rw [Prod.mk.injEq] at hcf
            rw [hcf.1, hcf.2]
            exact edgeReach_symm hab2
        · exact edgeReach_single (Or.inl (Finset.mem_insert_of_mem
            (Finset.mem_erase.mpr ⟨hcf, hh⟩)))
      · by_cases hcf : (d, c) = f0
        · rcases hf0or with hff | hff
          · rw [hff] at hcf
            rw [Prod.mk.injEq] at hcf
            rw [hcf.1, hcf.2]
            exact edgeReach_symm hab2
          · rw [hff] at hcf
            rw [Prod.mk.injEq] at hcf
            rw [hcf.1, hcf.2]
            exact hab2
        · exact edgeReach_single (Or.inr (Finset.mem_insert_of_mem
            (Finset.mem_erase.mpr ⟨hcf, hh⟩)))
    refine ⟨insert (u, v) (T.erase f0), ⟨?_, ?_, ?_⟩, ?_, ?_⟩
    · intro e he
      rcases Finset.mem_insert.mp he with rfl | he
      · exact ⟨huP, hvP⟩
      · exact hwithin e (Finset.mem_of_mem_erase he)
    · intro x hx y hy
      exact edgeReach_lift hlift (hconn x hx y hy)
    · rw [Finset.card_insert_of_not_mem huvE, Finset.card_erase_of_mem hf0T]
      have : 1 ≤ T.card := Finset.card_pos.mpr ⟨f0, hf0T⟩
      omega
    · rw [edgeWeight, Finset.sum_insert huvE]
      rw [show (∑ e ∈ T.erase f0, w e.1 e.2) = edgeWeight w (T.erase f0) from rfl]
      calc w u v + edgeWeight w (T.erase f0)
          ≤ w f0.1 f0.2 + edgeWeight w (T.erase f0) := by
            rw [hf0w]; exact Nat.add_le_add_right (hmin a ha b hb) _
        _ = edgeWeight w T := Finset.add_sum_erase T (fun e => w e.1 e.2) hf0T
    · intro e he
      rcases Finset.mem_insert.mp he with rfl | he
      · exact Finset.mem_insert_self _ _
      · refine Finset.mem_insert_of_mem (Finset.mem_erase.mpr ⟨?_, hsub he⟩)
        intro hh
        rcases hf0or with hff | hff
        · rw [hff] at hh
          exact hb (by rw [hh] at he; exact (hpicked _ he).2)
        · rw [hff] at hh
          exact hb (by rw [hh] at he; exact (hpicked _ he).1)

end ExchangeLemma

/-! ## Correctness of the candidate scan -/

section PrimSelect

variable {n : ℕ} (w : Fin n → Fin n → ℕ)

theorem primFoldStep_none (uv : Fin n × Fin n) :
    primFoldStep w none uv = some (uv.1, uv.2, w uv.1 uv.2) := rfl

theorem primFoldStep_some (best : Fin n × Fin n × ℕ) (uv : Fin n × Fin n) :
    primFoldStep w (some best) uv =
      if w uv.1 uv.2 < best.2.2 then some (uv.1, uv.2, w uv.1 uv.2) else some best := rfl

theorem primFoldStep_ne_none (acc : Option (Fin n × Fin n × ℕ)) (uv : Fin n × Fin n) :
    primFoldStep w acc uv ≠ none := by
  cases acc with
  | none => rw [primFoldStep_none]; simp
  | some best => rw [primFoldStep_some]; split_ifs <;> simp

theorem primFold_ne_none :
    ∀ (l : List (Fin n × Fin n)) (b : Fin n × Fin n × ℕ),
      l.foldl (primFoldStep w) (some b) ≠ none := by
  intro l
  induction l with
  | nil => intro b h; cases h
  | cons x xs ih =>
    intro b
    rw [List.foldl_cons]
    cases hstep : primFoldStep w (some b) x with
    | none => exact absurd hstep (primFoldStep_ne_none w _ _)
    | some b2 => exact ih b2

/-- One step of the scan: the new accumulator is at most the examined
candidate's weight, at most the old accumulator's value, and is either the
old accumulator or the examined candidate. -/
theorem primFoldStep_spec (acc : Option (Fin n × Fin n × ℕ)) (x : Fin n × Fin n)
    (b2 : Fin n × Fin n × ℕ) (hb2 : primFoldStep w acc x = some b2) :
    b2.2.2 ≤ w x.1 x.2 ∧ (∀ b, acc = some b → b2.2.2 ≤ b.2.2) ∧
      (acc = some b2 ∨ ((b2.1, b2.2.1) = x ∧ b2.2.2 = w b2.1 b2.2.1)) := by
  cases acc with
  | none =>
    rw [primFoldStep_none] at hb2
    cases hb2
    refine ⟨le_refl _, ?_, Or.inr ⟨rfl, rfl⟩⟩
    intro b hb
    cases hb
  | some best =>
    rw [primFoldStep_some] at hb2
    split_ifs at hb2 with hlt
    · cases hb2
      refine ⟨le_refl _, ?_, Or.inr ⟨rfl, rfl⟩⟩
      intro b hb
      cases hb
      exact le_of_lt hlt
    · cases hb2
      refine ⟨le_of_not_lt hlt, ?_, Or.inl rfl⟩
      intro b hb
      cases hb
      exact le_refl _

/-- The scan's final result is one of the candidates (unless it is the
unchanged initial accumulator), never exceeds any examined candidate's
weight, and never exceeds the initial accumulator's value. -/
theorem primFold_spec :
    ∀ (l : List (Fin n × Fin n)) (acc : Option (Fin n × Fin n × ℕ))
      (r : Fin n × Fin n × ℕ), l.foldl (primFoldStep w) acc = some r →
      (acc = some r ∨ ((r.1, r.2.1) ∈ l ∧ r.2.2 = w r.1 r.2.1)) ∧
      (∀ x ∈ l, r.2.2 ≤ w x.1 x.2) ∧
      (∀ b, acc = some b → r.2.2 ≤ b.2.2) := by
  intro l
  induction l with
  | nil =>
    intro acc r h
    rw [List.foldl_nil] at h
    refine ⟨Or.inl h, by simp, ?_⟩
    intro b hb
    rw [h] at hb
    cases hb
    exact le_refl _
  | cons x xs ih =>
    intro acc r h
    rw [List.foldl_cons] at h
    cases hacc : primFoldStep w acc x with
    | none => exact absurd hacc (primFoldStep_ne_none w _ _)
    | some b2 =>
      rw [hacc] at h
      obtain ⟨h1, h2, h3⟩ := ih (some b2) r h
      obtain ⟨hb2x, hb2acc, hb2mem⟩ := primFoldStep_spec w acc x b2 hacc
      have hrb2 : r.2.2 ≤ b2.2.2 := h3 b2 rfl
      refine ⟨?_, ?_, ?_⟩
      · rcases h1 with h1 | h1
        · cases h1
          rcases hb2mem with hm | hm
          · exact Or.inl hm
          · refine Or.inr ⟨?_, hm.2⟩
            rw [hm.1]
            exact List.mem_cons_self _ _
        · exact Or.inr ⟨List.mem_cons_of_mem _ h1.1, h1.2⟩
      · intro y hy
        rcases List.mem_cons.mp hy with rfl | hy
        · exact le_trans hrb2 hb2x
        · exact h2 y hy
      · intro b hb
        exact le_trans hrb2 (hb2acc b hb)

/-- When the visited set is a nonempty proper subset of the vertices, the
scan returns a minimum-weight edge across the cut. -/
theorem primSelect_spec (visited : Finset (Fin n)) (u0 : Fin n) (hu0 : u0 ∈ visited)
    (v0 : Fin n) (hv0 : v0 ∉ visited) :
    ∃ u v, primSelect w visited = some (u, v, w u v) ∧ u ∈ visited ∧ v ∉ visited ∧
      ∀ a ∈ visited, ∀ b, b ∉ visited → w u v ≤ w a b := by
  have hcand : ∀ x : Fin n × Fin n,
      x ∈ ((List.finRange n).product (List.finRange n)).filter
        (fun uv => decide (uv.1 ∈ visited ∧ uv.2 ∉ visited)) ↔
      (x.1 ∈ visited ∧ x.2 ∉ visited) := by
    intro x
    obtain ⟨x1, x2⟩ := x
    rw [List.mem_filter]
    simp [List.mem_product, List.mem_finRange]
  have hne : ((List.finRange n).product (List.finRange n)).filter
      (fun uv => decide (uv.1 ∈ visited ∧ uv.2 ∉ visited)) ≠ [] := by
    intro hempty
    have hmm := (hcand (u0, v0)).mpr ⟨hu0, hv0⟩
    rw [hempty] at hmm
    cases hmm
  obtain ⟨c, cs, hl⟩ := List.exists_cons_of_ne_nil hne
  cases hres : primSelect w visited with
  | none =>
    unfold primSelect at hres
    rw [hl, List.foldl_cons] at hres
    cases hstep : primFoldStep w none c with
    | none => exact absurd hstep (primFoldStep_ne_none w _ _)
    | some b2 =>
      rw [hstep] at hres
      exact absurd hres (primFold_ne_none w cs b2)
  | some r =>
    have hres2 : (((List.finRange n).product (List.finRange n)).filter
        (fun uv => decide (uv.1 ∈ visited ∧ uv.2 ∉ visited))).foldl
          (primFoldStep w) none = some r := hres
    obtain ⟨h1, h2, -⟩ := primFold_spec w _ none r hres2
    rcases h1 with h1 | h1
    · cases h1
    · obtain ⟨hmem, hval⟩ := h1
      have hcut := (hcand (r.1, r.2.1)).mp hmem
      refine ⟨r.1, r.2.1, ?_, hcut.1, hcut.2, ?_⟩
      · rw [← hval]
      · intro a ha b hb
        rw [← hval]
        exact h2 (a, b) ((hcand (a, b)).mpr ⟨ha, hb⟩)

end PrimSelect

/-! ## Correctness of the Prim loop -/

theorem primLoop_zero {n : ℕ} (w : Fin n → Fin n → ℕ) (S : Finset (Fin n)) (acc : ℕ) :
    primLoop w 0 S acc = acc := rfl

theorem primLoop_succ {n : ℕ} (w : Fin n → Fin n → ℕ) (k : ℕ) (S : Finset (Fin n))
    (acc : ℕ) :
    primLoop w (k + 1) S acc =
      match primSelect w S with
      | none => acc
      | some (_, v, d) => primLoop w k (insert v S) (acc + d) := rfl

/-- The run of Prim's loop from a partial state: the result is the weight of
some spanning tree of the complete graph, and it is at most the weight of
every spanning tree containing the edges picked so far. -/
theorem primLoop_correct {n : ℕ} (w : Fin n → Fin n → ℕ) (hw : ∀ i j, w i j = w j i) :
    ∀ (k : ℕ) (S : Finset (Fin n)) (acc : ℕ) (picked : Finset (Fin n × Fin n)),
      k + S.card = n → S.Nonempty →
      (∀ e ∈ picked, e.1 ∈ S ∧ e.2 ∈ S) →
      (∀ x ∈ S, ∀ y ∈ S, edgeReach picked x y) →
      edgeWeight w picked = acc →
      picked.card + 1 = S.card →
      (∃ Pk : Finset (Fin n × Fin n),
        primLoop w k S acc = edgeWeight w Pk ∧
        spanningTreeOn Pk (Finset.univ : Finset (Fin n))) ∧
      (∀ T, spanningTreeOn T (Finset.univ : Finset (Fin n)) → picked ⊆ T →
        primLoop w k S acc ≤ edgeWeight w T) := by
  intro k
  induction k with
  | zero =>
    intro S acc picked hcard hne hp1 hp2 hwt hpc
    have hSuniv : S = Finset.univ := by
      apply Finset.eq_univ_of_card
      rw [Fintype.card_fin]
      omega
    constructor
    · refine ⟨picked, by rw [primLoop_zero]; exact hwt.symm, ?_, ?_, ?_⟩
      · exact fun e _ => ⟨Finset.mem_univ _, Finset.mem_univ _⟩
      · intro x hx y hy
        exact hp2 x (by rw [hSuniv]; exact hx) y (by rw [hSuniv]; exact hy)
      · rw [hpc, hSuniv, Finset.card_univ, Fintype.card_fin]
    · intro T hT hsub
      rw [primLoop_zero, ← hwt]
      exact edgeWeight_subset_le hsub
  | succ k ih =>
    intro S acc picked hcard hne hp1 hp2 hwt hpc
    have hSne : S ≠ Finset.univ := by
      intro hh
      rw [hh, Finset.card_univ, Fintype.card_fin] at hcard
      omega
    have hex : ∃ v0, v0 ∉ S := by
      by_contra hno
      push_neg at hno
      exact hSne (Finset.eq_univ_iff_forall.mpr hno)
    obtain ⟨v0, hv0⟩ := hex
    obtain ⟨u0, hu0⟩ := hne
    obtain ⟨u, v, hsel, huS, hvS, hmin⟩ := primSelect_spec w S u0 hu0 v0 hv0
    have hstep : primLoop w (k + 1) S acc = primLoop w k (insert v S) (acc + w u v) := by
      rw [primLoop_succ, hsel]
    have huvp : (u, v) ∉ picked := fun hh => hvS (hp1 _ hh).2
    have hp1' : ∀ e ∈ insert (u, v) picked,
        e.1 ∈ insert v S ∧ e.2 ∈ insert v S := by
      intro e he
      rcases Finset.mem_insert.mp he with rfl | he
      · exact ⟨Finset.mem_insert_of_mem huS, Finset.mem_insert_self _ _⟩
      · exact ⟨Finset.mem_insert_of_mem (hp1 _ he).1,
          Finset.mem_insert_of_mem (hp1 _ he).2⟩
    have hreachu : ∀ x ∈ insert v S, edgeReach (insert (u, v) picked) x u := by
      intro x hx
      rcases Finset.mem_insert.mp hx with rfl | hx
      · exact edgeReach_single (Or.inr (Finset.mem_insert_self _ _))
      · exact edgeReach_mono (Finset.subset_insert _ _) (hp2 x hx u huS)
    have hp2' : ∀ x ∈ insert v S, ∀ y ∈ insert v S,
        edgeReach (insert (u, v) picked) x y := by
      intro x hx y hy
      exact (hreachu x hx).trans (edgeReach_symm (hreachu y hy))
    have hwt' : edgeWeight w (insert (u, v) picked) = acc + w u v := by
      rw [edgeWeight, Finset.sum_insert huvp]
      rw [show (∑ e ∈ picked, w e.1 e.2) = edgeWeight w picked from rfl, hwt]
      show w u v + acc = acc + w u v
      omega
    have hpc' : (insert (u, v) picked).card + 1 = (insert v S).card := by
      rw [Finset.card_insert_of_not_mem huvp, Finset.card_insert_of_not_mem hvS]
      omega
    have hcard' : k + (insert v S).card = n := by
      rw [Finset.card_insert_of_not_mem hvS]
      omega
    obtain ⟨hupper, hlower⟩ := ih (insert v S) (acc + w u v) (insert (u, v) picked)
      hcard' ⟨v, Finset.mem_insert_self _ _⟩ hp1' hp2' hwt' hpc'
    constructor
    · obtain ⟨Pk, hPk1, hPk2⟩ := hupper
      exact ⟨Pk, by rw [hstep]; exact hPk1, hPk2⟩
    · intro T hT hsub
      obtain ⟨T2, hT2, hT2w, hT2sub⟩ := tree_exchange hw Finset.univ S T picked u v
        hT hsub hp1 huS hvS (Finset.mem_univ _) (Finset.mem_univ _) hmin
      rw [hstep]
      exact le_trans (hlower T2 hT2 hT2sub) hT2w

/-- Prim's loop started from any single vertex computes exactly the minimum
spanning tree weight of the complete graph on `Fin n`. -/
theorem primLoop_eq_mstWeight {n : ℕ} (w : Fin n → Fin n → ℕ)
    (hw : ∀ i j, w i j = w j i) (start : Fin n) :
    primLoop w (n - 1) {start} 0 = mstWeight w (Finset.univ : Finset (Fin n)) := by
  have hn : 0 < n := start.pos
  obtain ⟨⟨Pk, hPk1, hPk2⟩, hlower⟩ := primLoop_correct w hw (n - 1) {start} 0 ∅
    (by rw [Finset.card_singleton]; omega)
    (Finset.singleton_nonempty _)
    (by intro e he; cases he)
    (by
      intro x hx y hy
      rw [Finset.mem_singleton.mp hx, Finset.mem_singleton.mp hy]
      exact edgeReach_refl _)
    (by rw [edgeWeight, Finset.sum_empty])
    (by rw [Finset.card_empty, Finset.card_singleton])
  apply le_antisymm
  · have hmem : mstWeight w (Finset.univ : Finset (Fin n)) ∈
        {c | ∃ E, spanningTreeOn E (Finset.univ : Finset (Fin n)) ∧
          edgeWeight w E = c} := by
      apply Nat.sInf_mem
      exact ⟨edgeWeight w Pk, Pk, hPk2, rfl⟩
    obtain ⟨T, hT, hTw⟩ := hmem
    rw [← hTw]
    exact hlower T hT (Finset.empty_subset _)
  · rw [hPk1]
    exact Nat.sInf_le ⟨Pk, hPk2, rfl⟩

/-! ## Transfer between the index graph of the node list and the point graph -/

theorem edgeReach_map {α β : Type} [DecidableEq α] [DecidableEq β] (f : α → β)
    {E : Finset (α × α)} {F : Finset (β × β)}
    (hmap : ∀ a b, edgeStep E a b → edgeStep F (f a) (f b)) {x y : α}
    (h : edgeReach E x y) : edgeReach F (f x) (f y) := by
  induction h with
  | refl => exact edgeReach_refl _
  | tail hab hstep ih => exact ih.tail (hmap _ _ hstep)

theorem idxIn_get (L : List Pos) (hn : 0 < L.length) (p : Pos) (hp : p ∈ L) :
    L.get (idxIn L hn p) = p := by
  unfold idxIn
  rw [dif_pos hp]
  exact (List.mem_iff_get.mp hp).choose_spec

theorem get_idxIn (L : List Pos) (hnodup : L.Nodup) (hn : 0 < L.length) (i : Fin L.length) :
    idxIn L hn (L.get i) = i := by
  have hginj : Function.Injective L.get := List.nodup_iff_injective_get.mp hnodup
  apply hginj
  exact idxIn_get L hn (L.get i) (L.get_mem _ _)

/-- The MST weight of the complete graph on the indices of a duplicate-free
node list, with weights read through the list, equals the MST weight of the
complete graph on the underlying point set. -/
theorem mstWeight_index_eq_point (L : List Pos) (hnodup : L.Nodup) (hn : 0 < L.length) :
    mstWeight (listWeight L) (Finset.univ : Finset (Fin L.length)) =
      mstWeight manhattanDist L.toFinset := by
  have hginj : Function.Injective L.get := List.nodup_iff_injective_get.mp hnodup
  have hPcard : L.toFinset.card = L.length := List.toFinset_card_of_nodup hnodup
  have hmemget : ∀ p, p ∈ L.toFinset → ∃ i : Fin L.length, L.get i = p := by
    intro p hp
    exact ⟨idxIn L hn p, idxIn_get L hn p (List.mem_toFinset.mp hp)⟩
  unfold mstWeight
  congr 1
  ext c
  constructor
  · rintro ⟨E, ⟨hwithin, hconn, hcard⟩, hweight⟩
    refine ⟨E.image (fun e => (L.get e.1, L.get e.2)), ⟨?_, ?_, ?_⟩, ?_⟩
    · intro e he
      obtain ⟨e0, he0, rfl⟩ := Finset.mem_image.mp he
      exact ⟨List.mem_toFinset.mpr (L.get_mem _ _), List.mem_toFinset.mpr (L.get_mem _ _)⟩
    · intro p hp q hq
      obtain ⟨i, rfl⟩ := hmemget p hp
      obtain ⟨j, rfl⟩ := hmemget q hq
      refine edgeReach_map L.get ?_ (hconn i (Finset.mem_univ _) j (Finset.mem_univ _))
      intro a b hab
      rcases hab with hh | hh
      · exact Or.inl (Finset.mem_image.mpr ⟨(a, b), hh, rfl⟩)
      · exact Or.inr (Finset.mem_image.mpr ⟨(b, a), hh, rfl⟩)
    · rw [Finset.card_image_of_injective E
        (fun e1 e2 hee => by
          rw [Prod.mk.injEq] at hee
          exact Prod.ext (hginj hee.1) (hginj hee.2)), hPcard]
      rw [Finset.card_univ, Fintype.card_fin] at hcard
      exact hcard
    · rw [← hweight]
      unfold edgeWeight
      rw [Finset.sum_image]
      · rfl
      · intro e1 he1 e2 he2 hee
        rw [Prod.mk.injEq] at hee
        exact Prod.ext (hginj hee.1) (hginj hee.2)
  · rintro ⟨E, ⟨hwithin, hconn, hcard⟩, hweight⟩
    have hgidx : ∀ e ∈ E, L.get (idxIn L hn e.1) = e.1 ∧ L.get (idxIn L hn e.2) = e.2 := by
      intro e he
      have h1 := (hwithin e he).1
      have h2 := (hwithin e he).2
      exact ⟨idxIn_get L hn e.1 (List.mem_toFinset.mp h1),
        idxIn_get L hn e.2 (List.mem_toFinset.mp h2)⟩
    have hinj : Set.InjOn (fun e : Pos × Pos => (idxIn L hn e.1, idxIn L hn e.2)) E := by
      intro e1 he1 e2 he2 hee
      obtain ⟨ha1, ha2⟩ := hgidx e1 he1
      obtain ⟨hb1, hb2⟩ := hgidx e2 he2
      rw [Prod.mk.injEq] at hee
      apply Prod.ext
      · rw [← ha1, ← hb1, hee.1]
      · rw [← ha2, ← hb2, hee.2]
    refine ⟨E.image (fun e => (idxIn L hn e.1, idxIn L hn e.2)), ⟨?_, ?_, ?_⟩, ?_⟩
    · exact fun e _ => ⟨Finset.mem_univ _, Finset.mem_univ _⟩
    · intro i _ j _
      have hri := hconn (L.get i) (List.mem_toFinset.mpr (L.get_mem _ _))
        (L.get j) (List.mem_toFinset.mpr (L.get_mem _ _))
      have hmapstep : ∀ a b, edgeStep E a b →
          edgeStep (E.image (fun e => (idxIn L hn e.1, idxIn L hn e.2)))
            (idxIn L hn a) (idxIn L hn b) := by
        intro a b hab
        rcases hab with hh | hh
        · exact Or.inl (Finset.mem_image.mpr ⟨(a, b), hh, rfl⟩)
        · exact Or.inr (Finset.mem_image.mpr ⟨(b, a), hh, rfl⟩)
      have hmapped := edgeReach_map (idxIn L hn) hmapstep hri
      rw [get_idxIn L hnodup hn i, get_idxIn L hnodup hn j] at hmapped
      exact hmapped
    · rw [Finset.card_image_of_injOn hinj]
      rw [Finset.card_univ, Fintype.card_fin]
      rw [hPcard] at hcard
      exact hcard
    · rw [← hweight]
      unfold edgeWeight
      rw [Finset.sum_image ?_]
      · apply Finset.sum_congr rfl
        intro e he
        obtain ⟨h1, h2⟩ := hgidx e he
        show manhattanDist (L.get (idxIn L hn e.1)) (L.get (idxIn L hn e.2)) =
          manhattanDist e.1 e.2
        rw [h1, h2]
      · exact hinj

/-! ## MST weight: singleton, star trees, and attaching a point -/

theorem mstWeight_singleton {V : Type} [DecidableEq V] (w : V → V → ℕ) (a : V) :
    mstWeight w ({a} : Finset V) = 0 := by
  apply Nat.eq_zero_of_le_zero
  apply Nat.sInf_le
  refine ⟨∅, ⟨?_, ?_, ?_⟩, ?_⟩
  · intro e he
    cases he
  · intro x hx y hy
    rw [Finset.mem_singleton.mp hx, Finset.mem_singleton.mp hy]
    exact edgeReach_refl _
  · rw [Finset.card_empty, Finset.card_singleton]
  · rw [edgeWeight, Finset.sum_empty]

/-- A star centred at any member spans a finite vertex set. -/
theorem exists_spanningTreeOn {V : Type} [DecidableEq V] (P : Finset V) (a : V)
    (ha : a ∈ P) : ∃ E, spanningTreeOn E P := by
  refine ⟨(P.erase a).image (fun b => (a, b)), ?_, ?_, ?_⟩
  · intro e he
    obtain ⟨b, hb, rfl⟩ := Finset.mem_image.mp he
    exact ⟨ha, Finset.mem_of_mem_erase hb⟩
  · have hto : ∀ x ∈ P, edgeReach ((P.erase a).image (fun b => (a, b))) x a := by
      intro x hx
      by_cases hxa : x = a
      · rw [hxa]
        exact edgeReach_refl _
      · exact edgeReach_single
          (Or.inr (Finset.mem_image.mpr ⟨x, Finset.mem_erase.mpr ⟨hxa, hx⟩, rfl⟩))
    intro x hx y hy
    exact (hto x hx).trans (edgeReach_symm (hto y hy))
  · have hinj : Set.InjOn (fun b : V => (a, b)) (P.erase a) := by
      intro b1 _ b2 _ hb
      exact (Prod.mk.injEq _ _ _ _).mp hb |>.2
    rw [Finset.card_image_of_injOn hinj, Finset.card_erase_of_mem ha]
    have : 0 < P.card := Finset.card_pos.mpr ⟨a, ha⟩
    omega

/-- Attaching a new point `a` to any member `b` of `P` bounds the MST weight
of `insert a P` by the MST weight of `P` plus the weight of the new edge. -/
theorem mstWeight_insert_le {V : Type} [DecidableEq V] (w : V → V → ℕ) (P : Finset V)
    (a b : V) (hb : b ∈ P) :
    mstWeight w (insert a P) ≤ mstWeight w P + w b a := by
  by_cases haP : a ∈ P
  · rw [Finset.insert_eq_self.mpr haP]
    exact Nat.le_add_right _ _
  · obtain ⟨E0, hE0⟩ := exists_spanningTreeOn P b hb
    have hmem : mstWeight w P ∈ {c | ∃ E, spanningTreeOn E P ∧ edgeWeight w E = c} :=
      Nat.sInf_mem ⟨edgeWeight w E0, E0, hE0, rfl⟩
    obtain ⟨T, hT, hTw⟩ := hmem
    obtain ⟨hTwithin, hTconn, hTcard⟩ := hT
    have hba : (b, a) ∉ T := fun hh => haP (hTwithin _ hh).2
    apply Nat.sInf_le
    refine ⟨insert (b, a) T, ⟨?_, ?_, ?_⟩, ?_⟩
    · intro e he
      rcases Finset.mem_insert.mp he with rfl | he
      · exact ⟨Finset.mem_insert_of_mem hb, Finset.mem_insert_self _ _⟩
      · exact ⟨Finset.mem_insert_of_mem (hTwithin _ he).1,
          Finset.mem_insert_of_mem (hTwithin _ he).2⟩
    · have htob : ∀ x ∈ insert a P, edgeReach (insert (b, a) T) x b := by
        intro x hx
        rcases Finset.mem_insert.mp hx with rfl | hx
        · exact edgeReach_single (Or.inr (Finset.mem_insert_self _ _))
        · exact edgeReach_mono (Finset.subset_insert _ _) (hTconn x hx b hb)
      intro x hx y hy
      exact (htob x hx).trans (edgeReach_symm (htob y hy))
    · rw [Finset.card_insert_of_not_mem hba, Finset.card_insert_of_not_mem haP]
      omega
    · rw [edgeWeight, Finset.sum_insert hba]
      rw [show (∑ e ∈ T, w e.1 e.2) = edgeWeight w T from rfl, hTw]
      show w b a + mstWeight w P = mstWeight w P + w b a
      omega

/-! ## The MST heuristic computes the spec's MST weight -/

theorem mstNodes_length (s : PacmanState) :
    (mstNodes s).length = s.remaining_food.card + 1 := by
  unfold mstNodes
  rw [List.length_append, List.length_singleton, posList_length]

theorem mstNodes_nodup (s : PacmanState) (hpos : s.position ∉ s.remaining_food) :
    (mstNodes s).Nodup := by
  unfold mstNodes
  rw [List.nodup_append]
  refine ⟨posList_nodup _, List.nodup_singleton _, ?_⟩
  intro a ha hb
  rw [List.mem_singleton] at hb
  rw [hb] at ha
  exact hpos ((mem_posList _ _).mp ha)

theorem mstNodes_toFinset (s : PacmanState) :
    (mstNodes s).toFinset = insert s.position s.remaining_food := by
  unfold mstNodes
  rw [List.toFinset_append, posList_toFinset]
  ext p
  simp only [Finset.mem_union, List.toFinset_cons, List.toFinset_nil,
    insert_emptyc_eq, Finset.mem_singleton, Finset.mem_insert]
  exact or_comm

/-- On a state whose position is not itself an uneaten food, the Prim loop of
`MSTHeuristic.compute` returns exactly the minimum spanning tree weight of the
complete Manhattan graph on `{position} ∪ remainingFood`. -/
theorem mstHeuristic_eq_mstSpecWeight_aux (s : PacmanState)
    (hfood : s.remaining_food ≠ ∅) (hpos : s.position ∉ s.remaining_food) :
    mstHeuristic s = mstSpecWeight s.position s.remaining_food := by
  have hlen : (mstNodes s).length = s.remaining_food.card + 1 := mstNodes_length s
  have hn : 0 < (mstNodes s).length := by omega
  unfold mstHeuristic
  rw [if_neg hfood]
  dsimp only
  split
  · omega
  · rename_i k heq
    have hw : ∀ i j, listWeight (mstNodes s) i j = listWeight (mstNodes s) j i := by
      intro i j
      unfold listWeight
      exact manhattanDist_comm _ _
    have hk : k < (mstNodes s).length := by omega
    have hmain := primLoop_eq_mstWeight (listWeight (mstNodes s)) hw ⟨k, hk⟩
    rw [show (mstNodes s).length - 1 = k from by omega] at hmain
    have hrest : mstWeight (listWeight (mstNodes s)) Finset.univ =
        mstSpecWeight s.position s.remaining_food := by
      rw [mstWeight_index_eq_point _ (mstNodes_nodup s hpos) hn, mstNodes_toFinset]
      rfl
    exact hmain.trans hrest

/-! ## Base-variant successor and plan-execution lemmas -/

theorem mem_base_get_successors_elim (m : Maze) (s : PacmanState)
    (x : PacmanState × PacAction × ℕ) (hx : x ∈ m.get_successors s) :
    ∃ a ∈ m.get_legal_moves s.position.1 s.position.2 (s.wall_pass_steps > 0),
      x = (m.apply_move s a, a, 1) := by
  unfold Maze.get_successors at hx
  obtain ⟨a, ha, rfl⟩ := List.mem_map.mp hx
  exact ⟨a, ha, rfl⟩

theorem apply_move_fields (m : Maze) (s : PacmanState) (a : PacAction) :
    (m.apply_move s a).remaining_food =
      s.remaining_food.erase (m.apply_move s a).position ∧
    (m.apply_move s a).remaining_pies =
      s.remaining_pies.erase (m.apply_move s a).position ∧
    (m.apply_move s a).path = s.path ++ [a] ∧
    (m.apply_move s a).path_cost = s.path_cost + 1 :=
  ⟨rfl, rfl, rfl, rfl⟩

/-- With teleportation disabled, `apply_move` lands on the plain displaced
cell. -/
theorem apply_move_position_no_teleport (m : Maze)
    (htele : ∀ x y, m.get_teleport_destination x y = none)
    (s : PacmanState) (a : PacAction) :
    (m.apply_move s a).position =
      (s.position.1 + a.delta.1, s.position.2 + a.delta.2) := by
  unfold Maze.apply_move
  dsimp only
  rw [htele]

/-- Each action displaces the position by Manhattan distance at most 1. -/
theorem manhattanDist_delta (p : Pos) (a : PacAction) :
    manhattanDist p (p.1 + a.delta.1, p.2 + a.delta.2) ≤ 1 := by
  cases a <;> simp [manhattanDist, PacAction.delta]

/-- With fewer than two open corners, `get_teleport_destination` is `None`
everywhere (teleportation disabled). -/
theorem get_teleport_destination_of_short (m : Maze)
    (hc : m.identify_corners.length < 2) (x y : ℤ) :
    m.get_teleport_destination x y = none := by
  unfold Maze.get_teleport_destination
  dsimp only
  rw [if_pos hc]

theorem stepAction_some_elim (m : Maze) (s : PacmanState) (a : PacAction)
    (t : PacmanState) (h : stepAction m s a = some t) : t = m.apply_move s a := by
  unfold stepAction at h
  cases hfind : (m.get_successors s).find? (fun x => x.2.1 == a) with
  | none =>
    rw [hfind] at h
    cases h
  | some x =>
    rw [hfind] at h
    dsimp only at h
    have hxa : x.2.1 = a := by
      have := List.find?_some hfind
      exact beq_iff_eq.mp this
    have hmem := List.mem_of_find?_eq_some hfind
    obtain ⟨a0, _, hx0⟩ := mem_base_get_successors_elim m s x hmem
    have ha0 : a0 = a := by
      rw [hx0] at hxa
      exact hxa
    rw [← Option.some.inj h, hx0, ha0]

theorem execPlan_nil (m : Maze) (s : PacmanState) : execPlan m s [] = some s := rfl

theorem execPlan_cons (m : Maze) (s : PacmanState) (a : PacAction)
    (rest : List PacAction) :
    execPlan m s (a :: rest) =
      match stepAction m s a with
      | some t => execPlan m t rest
      | none => none := rfl

/-- A food cell of `s` that is gone after successfully running a plan is at
Manhattan distance at most the plan length from `s` (teleportation
disabled). -/
theorem exec_nearest_bound_aux (m : Maze)
    (htele : ∀ x y, m.get_teleport_destination x y = none) :
    ∀ (plan : List PacAction) (s t : PacmanState), execPlan m s plan = some t →
      ∀ f ∈ s.remaining_food, f ∉ t.remaining_food →
        manhattanDist s.position f ≤ plan.length := by
  intro plan
  induction plan with
  | nil =>
    intro s t hrun f hf hft
    rw [execPlan_nil] at hrun
    rw [← Option.some.inj hrun] at hft
    exact absurd hf hft
  | cons act rest ih =>
    intro s t hrun f hf hft
    rw [execPlan_cons] at hrun
    cases hstep : stepAction m s act with
    | none =>
      rw [hstep] at hrun
      cases hrun
    | some u =>
      rw [hstep] at hrun
      dsimp only at hrun
      have hu : u = m.apply_move s act := stepAction_some_elim m s act u hstep
      have hupos : u.position = (s.position.1 + act.delta.1, s.position.2 + act.delta.2) := by
        rw [hu]
        exact apply_move_position_no_teleport m htele s act
      have hstep1 : manhattanDist s.position u.position ≤ 1 := by
        rw [hupos]
        exact manhattanDist_delta _ _
      have hufood : u.remaining_food = s.remaining_food.erase u.position := by
        rw [hu]
        exact (apply_move_fields m s act).1 |>.trans (by rw [← hu])
      rw [List.length_cons]
      by_cases hfe : f = u.position
      · rw [hfe]
        omega
      · have hfu : f ∈ u.remaining_food := by
          rw [hufood]
          exact Finset.mem_erase.mpr ⟨hfe, hf⟩
        have hrec := ih u t hrun f hfu hft
        have htri := manhattanDist_triangle s.position u.position f
        omega

/-- Walk-to-tree bound: if a plan runs successfully from `s` to `t`
(teleportation disabled) and `F` is a set of food cells of `s` all eaten by
`t`, then the complete Manhattan graph on `F` plus an anchor `a` within
distance `d` of `s` has a spanning tree of weight at most `d` plus the plan
length. -/
theorem exec_mst_bound_aux (m : Maze)
    (htele : ∀ x y, m.get_teleport_destination x y = none) :
    ∀ (plan : List PacAction) (s t : PacmanState), execPlan m s plan = some t →
      ∀ (a : Pos) (d : ℕ), manhattanDist a s.position ≤ d →
      ∀ F : Finset Pos, (∀ f ∈ F, f ∈ s.remaining_food ∧ f ∉ t.remaining_food) →
        mstWeight manhattanDist (insert a F) ≤ d + plan.length := by
  intro plan
  induction plan with
  | nil =>
    intro s t hrun a d had F hF
    rw [execPlan_nil] at hrun
    have hts : t = s := (Option.some.inj hrun).symm
    have hFempty : F = ∅ := by
      ext f
      simp only [Finset.not_mem_empty, iff_false]
      intro hf
      obtain ⟨h1, h2⟩ := hF f hf
      rw [hts] at h2
      exact h2 h1
    rw [hFempty, List.length_nil, Finset.insert_empty, mstWeight_singleton]
    exact Nat.zero_le _
  | cons act rest ih =>
    intro s t hrun a d had F hF
    rw [execPlan_cons] at hrun
    cases hstep : stepAction m s act with
    | none =>
      rw [hstep] at hrun
      cases hrun
    | some u =>
      rw [hstep] at hrun
      dsimp only at hrun
      have hu : u = m.apply_move s act := stepAction_some_elim m s act u hstep
      have hupos : u.position = (s.position.1 + act.delta.1, s.position.2 + act.delta.2) := by
        rw [hu]
        exact apply_move_position_no_teleport m htele s act
      have hstep1 : manhattanDist s.position u.position ≤ 1 := by
        rw [hupos]
        exact manhattanDist_delta _ _
      have hufood : u.remaining_food = s.remaining_food.erase u.position := by
        rw [hu]
        exact (apply_move_fields m s act).1
      rw [List.length_cons]
      by_cases hmem : u.position ∈ F
      · have hF' : ∀ f ∈ F.erase u.position,
            f ∈ u.remaining_food ∧ f ∉ t.remaining_food := by
          intro f hf
          obtain ⟨hne, hfF⟩ := Finset.mem_erase.mp hf
          obtain ⟨h1, h2⟩ := hF f hfF
          refine ⟨?_, h2⟩
          rw [hufood]
          exact Finset.mem_erase.mpr ⟨hne, h1⟩
        have hrec := ih u t hrun u.position 0 (by rw [manhattanDist_self])
          (F.erase u.position) hF'
        have hins : insert a F = insert a (insert u.position (F.erase u.position)) := by
          rw [Finset.insert_erase hmem]
        rw [hins]
        have hatt := mstWeight_insert_le manhattanDist
          (insert u.position (F.erase u.position)) a u.position
          (Finset.mem_insert_self _ _)
        have hwa : manhattanDist u.position a ≤ 1 + d := by
          have htri := manhattanDist_triangle u.position s.position a
          have h1 : manhattanDist u.position s.position ≤ 1 := by
            rw [manhattanDist_comm]
            exact hstep1
          have h2 : manhattanDist s.position a ≤ d := by
            rw [manhattanDist_comm]
            exact had
          omega
        omega
      · have hF' : ∀ f ∈ F, f ∈ u.remaining_food ∧ f ∉ t.remaining_food := by
          intro f hf
          obtain ⟨h1, h2⟩ := hF f hf
          refine ⟨?_, h2⟩
          rw [hufood]
          refine Finset.mem_erase.mpr ⟨?_, h1⟩
          intro hEq
          rw [hEq] at hf
          exact hmem hf
        have had' : manhattanDist a u.position ≤ d + 1 := by
          have htri := manhattanDist_triangle a s.position u.position
          omega
        have hrec := ih u t hrun a (d + 1) had' F hF'
        omega

theorem nearestFood_le (s : PacmanState) (f : Pos) (hf : f ∈ s.remaining_food) :
    nearestFoodHeuristic s ≤ manhattanDist s.position f := by
  unfold nearestFoodHeuristic
  rw [dif_pos ⟨f, hf⟩]
  exact Finset.min'_le _ _ (Finset.mem_image_of_mem _ hf)

theorem nearestFood_exists (s : PacmanState) (h : s.remaining_food.Nonempty) :
    ∃ f ∈ s.remaining_food, nearestFoodHeuristic s = manhattanDist s.position f := by
  unfold nearestFoodHeuristic
  rw [dif_pos h]
  have hmem := Finset.min'_mem
    (s.remaining_food.image (fun f => manhattanDist s.position f)) (h.image _)
  obtain ⟨f, hf, heq⟩ := Finset.mem_image.mp hmem
  exact ⟨f, hf, heq.symm⟩

theorem nearestFood_of_empty (s : PacmanState) (h : s.remaining_food = ∅) :
    nearestFoodHeuristic s = 0 := by
  unfold nearestFoodHeuristic
  rw [dif_neg (by rw [h]; exact Finset.not_nonempty_empty)]

/-! ## C4: admissibility -/

/-- C4 (counterexample): on the open 4-by-3 maze `exMazeTele` corner
teleportation is active, both heuristics value the initial state at 4, yet
the admitted plan East, East reaches the goal at cost 2 (the second East
teleports from corner `(3, 0)` straight to the food corner `(3, 2)`), so
neither heuristic is admissible under the generator's teleportation rules. -/
theorem c4_counterexample :
    Maze.reachable exMazeTele exMazeTele.initial_state ∧
    nearestFoodHeuristic exMazeTele.initial_state = 4 ∧
    mstHeuristic exMazeTele.initial_state = 4 ∧
    execPlan exMazeTele exMazeTele.initial_state [.east, .east] =
      some { position := (3, 2), remaining_food := ∅, remaining_pies := ∅,
             wall_pass_steps := 0, path := [.east, .east], path_cost := 2 } ∧
    PacmanState.is_goal_state
      { position := (3, 2), remaining_food := ∅, remaining_pies := ∅,
        wall_pass_steps := 0, path := [.east, .east], path_cost := 2 } ∧
    ¬ (4 ≤ (2 : ℕ)) := by
  refine ⟨Relation.ReflTransGen.refl, by decide, by decide, by decide, by decide, by decide⟩

/-- C4 (amended): with teleportation disabled (fewer than two open corners)
and the position not itself an uneaten food, both the nearest-food heuristic
and the MST heuristic of `s` are lower bounds on the length of every action
sequence the successor generator admits from `s` to a goal state — in
particular on the optimal cost to the goal (each admitted action costs 1). -/
theorem c4_admissible (m : Maze) (s t : PacmanState) (plan : List PacAction)
    (hc : m.identify_corners.length < 2)
    (hp : s.position ∉ s.remaining_food)
    (hrun : execPlan m s plan = some t) (hgoal : t.is_goal_state) :
    nearestFoodHeuristic s ≤ plan.length ∧ mstHeuristic s ≤ plan.length := by
  have htele := fun x y => get_teleport_destination_of_short m hc x y
  have hgoal2 : t.remaining_food = ∅ := hgoal
  by_cases hF : s.remaining_food = ∅
  · constructor
    · rw [nearestFood_of_empty s hF]
      exact Nat.zero_le _
    · unfold mstHeuristic
      rw [if_pos hF]
      exact Nat.zero_le _
  · constructor
    · obtain ⟨f, hf⟩ := Finset.nonempty_iff_ne_empty.mpr hF
      have hnf : f ∉ t.remaining_food := by
        rw [hgoal2]
        exact Finset.not_mem_empty f
      have hdist := exec_nearest_bound_aux m htele plan s t hrun f hf hnf
      exact le_trans (nearestFood_le s f hf) hdist
    · rw [mstHeuristic_eq_mstSpecWeight_aux s hF hp]
      unfold mstSpecWeight
      have hbound := exec_mst_bound_aux m htele plan s t hrun s.position 0
        (by rw [manhattanDist_self]) s.remaining_food
        (fun f hf => ⟨hf, by rw [hgoal2]; exact Finset.not_mem_empty f⟩)
      rw [Nat.zero_add] at hbound
      exact hbound

/-- Witness for C4: on the wall-bordered maze `exMazeWalled` (teleportation
disabled) the one-step plan East reaches the goal and both heuristics are
bounded by its length. -/
theorem c4_admissible_witness :
    nearestFoodHeuristic (Maze.initial_state exMazeWalled) ≤
      [PacAction.east].length ∧
    mstHeuristic (Maze.initial_state exMazeWalled) ≤ [PacAction.east].length :=
  c4_admissible exMazeWalled (Maze.initial_state exMazeWalled)
    { position := (2, 1), remaining_food := ∅, remaining_pies := ∅,
      wall_pass_steps := 0, path := [.east], path_cost := 1 }
    [.east] (by decide) (by decide) (by decide) (by decide)

/-! ## C5: consistency -/

/-- C5 (counterexample): consistency `h(s) <= c + h(s')` fails for both
heuristics. On `exMaze9` — wall-bordered, so teleportation is disabled — the
West successor of `exStateB` costs 1 yet drops the MST heuristic from 10 to
8; on `exMazeTele` the East successor of `exStateC` teleports onto the food
and drops the nearest-food heuristic from 3 to 0 at cost 1. -/
theorem c5_counterexample :
    ((exMaze9.apply_move exStateB .west, PacAction.west, 1) ∈
        exMaze9.get_successors exStateB ∧
      exMaze9.identify_corners.length < 2 ∧
      mstHeuristic exStateB = 10 ∧
      mstHeuristic (exMaze9.apply_move exStateB .west) = 8 ∧
      ¬ (10 ≤ 1 + (8 : ℕ))) ∧
    ((exMazeTele.apply_move exStateC .east, PacAction.east, 1) ∈
        exMazeTele.get_successors exStateC ∧
      nearestFoodHeuristic exStateC = 3 ∧
      nearestFoodHeuristic (exMazeTele.apply_move exStateC .east) = 0 ∧
      ¬ (3 ≤ 1 + (0 : ℕ))) := by
  refine ⟨⟨by decide, by decide, by decide, by decide, by decide⟩,
    by decide, by decide, by decide, by decide⟩

/-- C5 (amended): with teleportation disabled (fewer than two open corners)
the nearest-food heuristic is consistent across every generated successor:
`h(s) <= c + h(s')` where `c` is the reported step cost.  (The MST heuristic
is not consistent even then, per the counterexample.) -/
theorem c5_nearest_consistent (m : Maze) (hc : m.identify_corners.length < 2)
    (s : PacmanState) (x : PacmanState × PacAction × ℕ)
    (hx : x ∈ m.get_successors s) :
    nearestFoodHeuristic s ≤ x.2.2 + nearestFoodHeuristic x.1 := by
  obtain ⟨a, _, rfl⟩ := mem_base_get_successors_elim m s x hx
  have htele := fun x y => get_teleport_destination_of_short m hc x y
  have hpos : (m.apply_move s a).position =
      (s.position.1 + a.delta.1, s.position.2 + a.delta.2) :=
    apply_move_position_no_teleport m htele s a
  have hstep1 : manhattanDist s.position (m.apply_move s a).position ≤ 1 := by
    rw [hpos]
    exact manhattanDist_delta _ _
  have hfood : (m.apply_move s a).remaining_food =
      s.remaining_food.erase (m.apply_move s a).position :=
    (apply_move_fields m s a).1
  by_cases hF : s.remaining_food.Nonempty
  · by_cases hF2 : (m.apply_move s a).remaining_food.Nonempty
    · obtain ⟨f, hf, hfeq⟩ := nearestFood_exists (m.apply_move s a) hF2
      have hfs : f ∈ s.remaining_food := by
        rw [hfood] at hf
        exact Finset.mem_of_mem_erase hf
      have h1 := nearestFood_le s f hfs
      have htri := manhattanDist_triangle s.position (m.apply_move s a).position f
      show nearestFoodHeuristic s ≤ 1 + nearestFoodHeuristic (m.apply_move s a)
      omega
    · have hempty : (m.apply_move s a).remaining_food = ∅ :=
        Finset.not_nonempty_iff_eq_empty.mp hF2
      have hsub : s.remaining_food = {(m.apply_move s a).position} := by
        rw [hempty] at hfood
        rcases (Finset.erase_eq_empty_iff _ _).mp hfood.symm with h0 | h1
        · exact absurd h0 (Finset.nonempty_iff_ne_empty.mp hF)
        · exact h1
      have h1 := nearestFood_le s (m.apply_move s a).position
        (by rw [hsub]; exact Finset.mem_singleton_self _)
      show nearestFoodHeuristic s ≤ 1 + nearestFoodHeuristic (m.apply_move s a)
      omega
  · rw [nearestFood_of_empty s (Finset.not_nonempty_iff_eq_empty.mp hF)]
    exact Nat.zero_le _

/-- Witness for C5: the East successor in the wall-bordered maze satisfies
the consistency inequality. -/
theorem c5_nearest_consistent_witness :
    nearestFoodHeuristic (Maze.initial_state exMazeWalled) ≤
      (exMazeWalled.apply_move (Maze.initial_state exMazeWalled) .east,
        PacAction.east, 1).2.2 +
      nearestFoodHeuristic
        (exMazeWalled.apply_move (Maze.initial_state exMazeWalled) .east) :=
  c5_nearest_consistent exMazeWalled (by decide) (Maze.initial_state exMazeWalled)
    (exMazeWalled.apply_move (Maze.initial_state exMazeWalled) .east,
      PacAction.east, 1) (by decide)

/-! ## C6: the MST heuristic -/

/-- C6 (confirmed): on every state whose position is not itself an uneaten
food cell — which holds for every state the successor generator produces,
since eating is by position — `MSTHeuristic.compute` returns exactly the
minimum spanning tree weight of the complete Manhattan graph on
`{position} ∪ remainingFood` (a natural number), and on an empty food set it
returns 0 straight from the guard without entering the Prim loop. -/
theorem c6_mst_heuristic :
    (∀ s : PacmanState, s.remaining_food ≠ ∅ → s.position ∉ s.remaining_food →
      mstHeuristic s = mstSpecWeight s.position s.remaining_food) ∧
    (∀ s : PacmanState, s.remaining_food = ∅ → mstHeuristic s = 0) ∧
    (∀ (m : Maze) (s : PacmanState) (x : PacmanState × PacAction × ℕ),
      x ∈ m.get_successors s → x.1.position ∉ x.1.remaining_food) := by
  refine ⟨fun s h1 h2 => mstHeuristic_eq_mstSpecWeight_aux s h1 h2, ?_, ?_⟩
  · intro s h
    unfold mstHeuristic
    rw [if_pos h]
  · intro m s x hx
    obtain ⟨a, _, rfl⟩ := mem_base_get_successors_elim m s x hx
    rw [(apply_move_fields m s a).1]
    exact Finset.not_mem_erase _ _

/-- Witness for C6: the concrete state `exStateA` satisfies the hypotheses
and hence its MST-heuristic value is the spec's MST weight; the empty-food
state `exState1` evaluates to 0. -/
theorem c6_mst_heuristic_witness :
    mstHeuristic exStateA = mstSpecWeight exStateA.position exStateA.remaining_food ∧
    mstHeuristic exState1 = 0 :=
  ⟨c6_mst_heuristic.1 exStateA (by decide) (by decide),
    c6_mst_heuristic.2.1 exState1 rfl⟩
